import Mathlib

/-!
Verification development for the zig-gui (zgl) layout engine and GUI layer.

The public C API is `src/include/zgl.h`; the behavior of the engine is fixed
by the specification (flexbox solver, arena node tree, dirty tracking, layout
cache, id/scope system).  The implementation behind the header is not part of
the source tree, so the operational definitions below are modelled from the
specification text; the style defaults and ABI constants are taken directly
from `zgl.h`.  All float arithmetic of the solver is modelled over `ℚ`
(the concrete scenarios of the spec are exact in rational arithmetic).
-/

/- ============================================================ -/
/- Style layer (Layer 0), from `zgl.h`                          -/
/- ============================================================ -/

/-- Flex direction (`ZGL_ROW = 0`, `ZGL_COLUMN = 1`). -/
inductive Dir where
  | row
  | column
deriving DecidableEq

/-- Main-axis alignment (`ZGL_JUSTIFY_*`, codes 0..5).  `jend` is `ZGL_JUSTIFY_END`. -/
inductive Justify where
  | start
  | center
  | jend
  | spaceBetween
  | spaceAround
  | spaceEvenly
deriving DecidableEq

/-- Cross-axis alignment (`ZGL_ALIGN_*`, codes 0..3).  `aend` is `ZGL_ALIGN_END`. -/
inductive Align where
  | start
  | center
  | aend
  | stretch
deriving DecidableEq

/-- `ZGL_AUTO` sentinel for content-sized dimensions. -/
def ZGL_AUTO : ℚ := -1

/-- `ZGL_NONE` sentinel for "no constraint" on min/max (1e30 in the header). -/
def ZGL_NONE : ℚ := 10 ^ 30

/-- `ZglStyle`, field for field as in `zgl.h` (the `_reserved` padding byte is
omitted: it carries no semantics). -/
structure Style where
  direction : Dir
  justify : Justify
  align : Align
  flex_grow : ℚ
  flex_shrink : ℚ
  width : ℚ
  height : ℚ
  min_width : ℚ
  min_height : ℚ
  max_width : ℚ
  max_height : ℚ
  gap : ℚ
  padding_top : ℚ
  padding_right : ℚ
  padding_bottom : ℚ
  padding_left : ℚ
deriving DecidableEq

/-- `ZGL_STYLE_DEFAULT` from `zgl.h`. -/
def ZGL_STYLE_DEFAULT : Style :=
  { direction := .column
    justify := .start
    align := .stretch
    flex_grow := 0
    flex_shrink := 1
    width := ZGL_AUTO
    height := ZGL_AUTO
    min_width := 0
    min_height := 0
    max_width := ZGL_NONE
    max_height := ZGL_NONE
    gap := 0
    padding_top := 0
    padding_right := 0
    padding_bottom := 0
    padding_left := 0 }

/-- `ZglRect`: computed position and size. -/
structure Rect where
  x : ℚ
  y : ℚ
  width : ℚ
  height : ℚ
deriving DecidableEq

/- ============================================================ -/
/- Flexbox solver (Layer 1 computation), modelled from the spec -/
/- ============================================================ -/

/-- Modelled from the spec: size normalization of §7 ("clamping min ≤ max and
flooring sizes at zero") followed by the clamp of §4.4; clamps always apply
last and the result lies in `[max 0 lo, max (max 0 lo) hi]`. -/
def clampSize (v lo hi : ℚ) : ℚ :=
  let lo2 := max 0 lo
  let hi2 := max lo2 hi
  max lo2 (min v hi2)

/-- Modelled from the spec: resolved outer length on one axis (§4.4): `AUTO`
takes the parent-provided length (floored at zero), otherwise the styled
length clamped to its min/max. -/
def resolveLen (v lo hi provided : ℚ) : ℚ :=
  if v = ZGL_AUTO then max 0 provided else clampSize v lo hi

/-- Main-axis (value, min, max) triple of a style under a direction. -/
def mainOf (dir : Dir) (s : Style) : ℚ × ℚ × ℚ :=
  match dir with
  | .row => (s.width, s.min_width, s.max_width)
  | .column => (s.height, s.min_height, s.max_height)

/-- Cross-axis (value, min, max) triple of a style under a direction. -/
def crossOf (dir : Dir) (s : Style) : ℚ × ℚ × ℚ :=
  match dir with
  | .row => (s.height, s.min_height, s.max_height)
  | .column => (s.width, s.min_width, s.max_width)

/-- Modelled from the spec: base main size `b_i` (§4.4 step 1): `AUTO` gives 0,
otherwise the styled main size clamped. -/
def baseMain (dir : Dir) (s : Style) : ℚ :=
  let (v, lo, hi) := mainOf dir s
  if v = ZGL_AUTO then 0 else clampSize v lo hi

/-- One item of the grow/shrink distribution (§4.4 step 2). -/
structure GItem where
  size : ℚ
  lo : ℚ
  hi : ℚ
  w : ℚ
  frozen : Bool
deriving DecidableEq

/-- Total distribution weight of the unfrozen items. -/
def sumUnfrozen (items : List GItem) : ℚ :=
  (items.filter (fun it => !it.frozen)).foldl (fun a it => a + it.w) 0

/-- Modelled from the spec: one distribution pass (§4.4 step 2).  Every
unfrozen item receives its weighted share of the signed free space `f`,
is clamped to its (lo, hi), and is frozen if the clamp changed it; the
second component is the leftover (requested minus granted) to redistribute. -/
def applyDist (f sw : ℚ) : List GItem → List GItem × ℚ
  | [] => ([], 0)
  | it :: rest =>
    let (rest2, left) := applyDist f sw rest
    if it.frozen then (it :: rest2, left)
    else
      let target := it.size + f * it.w / sw
      let clamped := clampSize target it.lo it.hi
      ({ it with size := clamped, frozen := decide (clamped ≠ target) } :: rest2,
        left + (target - clamped))

/-- Modelled from the spec: the bounded fixed-point redistribution loop of
§4.4 step 2 (at most `n_children` iterations; stops when nothing is left to
distribute or no unfrozen capacity remains). -/
def distLoop : ℕ → ℚ → List GItem → List GItem
  | 0, _, items => items
  | fuel + 1, f, items =>
    if f = 0 then items
    else
      let sw := sumUnfrozen items
      if sw ≤ 0 then items
      else
        let (items2, left) := applyDist f sw items
        distLoop fuel left items2

/-- Modelled from the spec: final main sizes of the children (§4.4 steps 1-2).
Positive free space is distributed by `flex_grow`, deficits by
`flex_shrink × base` (scaled shrink); otherwise the base sizes stand. -/
def mainDist (S : Style) (M : ℚ) (styles : List Style) : List ℚ :=
  let bases := styles.map (baseMain S.direction)
  let n := styles.length
  let G := S.gap * ((n - 1 : ℕ) : ℚ)
  let free := M - bases.sum - G
  if free = 0 then bases
  else
    let items := List.zipWith
      (fun (b : ℚ) (cs : Style) =>
        let (_, lo, hi) := mainOf S.direction cs
        { size := b, lo := max 0 lo, hi := max (max 0 lo) hi,
          w := if 0 < free then cs.flex_grow else cs.flex_shrink * b,
          frozen := false : GItem })
      bases styles
    (distLoop n free items).map (·.size)

/-- Modelled from the spec: the `justify` table of §4.4 step 3, giving
`(leading, between)` for `n` children with `used` space in a content box of
main size `M`. -/
def justifyParams (j : Justify) (gap M used : ℚ) (n : ℕ) : ℚ × ℚ :=
  match j with
  | .start => (0, gap)
  | .center => ((M - used) / 2, gap)
  | .jend => (M - used, gap)
  | .spaceBetween => (0, if 1 < n then gap + (M - used) / ((n : ℚ) - 1) else gap)
  | .spaceAround => ((M - used + (M - used) / (n : ℚ)) / 2, gap + (M - used) / (n : ℚ))
  | .spaceEvenly => ((M - used) / ((n : ℚ) + 1), gap + (M - used) / ((n : ℚ) + 1))

/-- Modelled from the spec: the `(leading, between)` the solver actually uses:
negative free space forces `leading = 0` and `between = gap` regardless of
`justify` (§4.4 step 3). -/
def placeParams (j : Justify) (gap M used : ℚ) (n : ℕ) : ℚ × ℚ :=
  if M - used < 0 then (0, gap) else justifyParams j gap M used n

/-- Main-axis origins by running sum from `leading` with `between` added after
each child (§4.4 step 3). -/
def scanPos (between : ℚ) : ℚ → List ℚ → List ℚ
  | _, [] => []
  | cur, s :: rest => cur :: scanPos between (cur + s + between) rest

/-- Modelled from the spec: cross size of a child (§4.4 steps 1 and 4): a
styled cross size is clamped; `AUTO` stretches to the content cross size `C`
under `STRETCH` and resolves to zero otherwise. -/
def crossSizeOf (S : Style) (C : ℚ) (cs : Style) : ℚ :=
  let (v, lo, hi) := crossOf S.direction cs
  if v = ZGL_AUTO then (if S.align = .stretch then C else 0) else clampSize v lo hi

/-- Modelled from the spec: cross offset of a child with cross size `xs`
(§4.4 step 4). -/
def crossOffsetOf (S : Style) (C xs : ℚ) : ℚ :=
  match S.align with
  | .start => 0
  | .stretch => 0
  | .center => (C - xs) / 2
  | .aend => C - xs

/-- Resolved outer size and viewport origin handed to one child:
`cw × ch` at `(x, y)`. -/
structure BoxC where
  cw : ℚ
  ch : ℚ
  x : ℚ
  y : ℚ
deriving DecidableEq

/-- Combine main positions/sizes and cross data into child boxes, mapping the
main/cross axes back to w/h and x/y by direction (§4.4). -/
def zipFinals (dir : Dir) (x0 y0 : ℚ) : List ℚ → List ℚ → List (ℚ × ℚ) → List BoxC
  | pos :: ps, s :: ss, (xs, off) :: cs =>
    (match dir with
     | .row => ⟨s, xs, x0 + pos, y0 + off⟩
     | .column => ⟨xs, s, x0 + off, y0 + pos⟩) :: zipFinals dir x0 y0 ps ss cs
  | _, _, _ => []

/-- Modelled from the spec: full children layout of a container with style `S`,
content box `M × C` (main × cross) with inner origin `(x0, y0)`: base sizes,
grow/shrink distribution, justify placement, cross placement (§4.4). -/
def childFinals (S : Style) (M C x0 y0 : ℚ) (styles : List Style) : List BoxC :=
  let sizes := mainDist S M styles
  let used := sizes.sum + S.gap * ((styles.length - 1 : ℕ) : ℚ)
  let lb := placeParams S.justify S.gap M used styles.length
  let pos := scanPos lb.2 lb.1 sizes
  let cross := styles.map (fun cs =>
    let xs := crossSizeOf S C cs
    (xs, crossOffsetOf S C xs))
  zipFinals S.direction x0 y0 pos sizes cross

/-- Modelled from the spec: the node tree as stored by the layout engine —
parent-to-children links through `firstChild`/`nextSibling` chains (§3): a
node carries its style, dirty bit, cached fingerprint and last computed rect,
its first child, and its next sibling.  `nil` is the chain end. -/
inductive NTree where
  | nil
  | node (style : Style) (dirty : Bool) (fp : Option (Style × ℚ × ℚ)) (rect : Rect)
      (firstChild : NTree) (nextSibling : NTree)
deriving DecidableEq

/-- Number of nodes in a sibling chain. -/
def chainLength : NTree → ℕ
  | .nil => 0
  | .node _ _ _ _ _ ns => chainLength ns + 1

/-- Styles of the nodes of a sibling chain, in order. -/
def chainStyles : NTree → List Style
  | .nil => []
  | .node s _ _ _ _ ns => s :: chainStyles ns

/-- Modelled from the spec: the recursive solver (§4.4-§4.5).  It walks a
sibling chain together with the list of per-node resolved boxes computed by
the parent.  A clean node whose stored fingerprint equals the fingerprint of
the new inputs is a cache hit: its rect is reused at the new origin and the
subtree is skipped.  Otherwise the node is solved: children boxes are
computed from the content box, the subtree is recursed into, and the node is
cleaned and refingerprinted.  Returns the solved chain and the
(hits, misses) counters. -/
def solveChain : NTree → List BoxC → NTree × ℕ × ℕ
  | .nil, _ => (.nil, 0, 0)
  | .node s d fp r fc ns, [] => (.node s d fp r fc ns, 0, 0)
  | .node s d fp r fc ns, bc :: rest =>
    if d = false ∧ fp = some (s, bc.cw, bc.ch) then
      let rs := solveChain ns rest
      (.node s false fp ⟨bc.x, bc.y, r.width, r.height⟩ fc rs.1, rs.2.1 + 1, rs.2.2)
    else
      let innerW := max 0 (bc.cw - s.padding_left - s.padding_right)
      let innerH := max 0 (bc.ch - s.padding_top - s.padding_bottom)
      let M := match s.direction with | .row => innerW | .column => innerH
      let C := match s.direction with | .row => innerH | .column => innerW
      let cf := childFinals s M C (bc.x + s.padding_left) (bc.y + s.padding_top) (chainStyles fc)
      let rc := solveChain fc cf
      let rs := solveChain ns rest
      (.node s false (some (s, bc.cw, bc.ch)) ⟨bc.x, bc.y, bc.cw, bc.ch⟩ rc.1 rs.1,
        rc.2.1 + rs.2.1, rc.2.2 + rs.2.2 + 1)

/-- Modelled from the spec: the per-root resolved boxes for `compute(w, h)`:
each root is resolved against the viewport and placed at the viewport
origin (§4.4). -/
def rootFinals (w h : ℚ) (t : NTree) : List BoxC :=
  (chainStyles t).map (fun s =>
    ⟨resolveLen s.width s.min_width s.max_width w,
     resolveLen s.height s.min_height s.max_height h, 0, 0⟩)

/-- Layout-engine solver state: the root chain and the cache counters of the
last `compute` (§4.5; per scenario 8 the counters describe the most recent
compute). -/
structure LState where
  tree : NTree
  hits : ℕ
  misses : ℕ
deriving DecidableEq

/-- Modelled from the spec: `zgl_layout_compute(w, h)` — solve every root
against the viewport, refreshing the cache counters. -/
def zgl_layout_compute (w h : ℚ) (st : LState) : LState :=
  let r := solveChain st.tree (rootFinals w h st.tree)
  ⟨r.1, r.2.1, r.2.2⟩

/-- Modelled from the spec: `zgl_layout_cache_hit_rate` — `hits/(hits+misses)`,
`0` when both counters are zero (§4.5). -/
def zgl_layout_cache_hit_rate (st : LState) : ℚ :=
  if st.hits + st.misses = 0 then 0
  else (st.hits : ℚ) / ((st.hits : ℚ) + (st.misses : ℚ))

/-- Number of dirty nodes in the whole forest (`zgl_layout_dirty_count`). -/
def dirtyCountN : NTree → ℕ
  | .nil => 0
  | .node _ d _ _ fc ns => (if d then 1 else 0) + dirtyCountN fc + dirtyCountN ns

/-- Every node of the forest is clean. -/
def allCleanB : NTree → Bool
  | .nil => true
  | .node _ d _ _ fc ns => !d && allCleanB fc && allCleanB ns

/-- Dirtiness is upward closed (§4.3): a clean node has a fully clean
subtree.  This holds in every state reachable through the engine, since
marking a node dirty also marks all its ancestors dirty. -/
def dirtyClosedB : NTree → Bool
  | .nil => true
  | .node _ d _ _ fc ns => (d || allCleanB fc) && dirtyClosedB fc && dirtyClosedB ns

/-- Every stored rect of the forest has nonnegative size.  This holds in
every reachable state, since stored rects are solver outputs. -/
def rectsNonnegB : NTree → Bool
  | .nil => true
  | .node _ _ _ r fc ns =>
    decide (0 ≤ r.width) && decide (0 ≤ r.height) && rectsNonnegB fc && rectsNonnegB ns

/-- Node at position `i` of a sibling chain (`nil` when out of range). -/
def chainGet : NTree → ℕ → NTree
  | .nil, _ => .nil
  | .node s d fp r fc ns, i => match i with
    | 0 => .node s d fp r fc ns
    | i + 1 => chainGet ns i

/-- Rect of the head node of a chain (zero rect for `nil`, as queries on
unknown nodes return zeroed data). -/
def rectOfN : NTree → Rect
  | .nil => ⟨0, 0, 0, 0⟩
  | .node _ _ _ r _ _ => r

/-- First child chain of the head node of a chain. -/
def firstOfN : NTree → NTree
  | .nil => .nil
  | .node _ _ _ _ fc _ => fc

/- ============================================================ -/
/- Identity & scope stack (Layer 2), modelled from the spec     -/
/- ============================================================ -/

/-- 32-bit left rotation on naturals reduced mod `2^32`. -/
def rotl32 (x r : ℕ) : ℕ :=
  ((x % 2 ^ 32) * 2 ^ r) % 2 ^ 32 + (x % 2 ^ 32) / 2 ^ (32 - r)

/-- Modelled from the spec: `zgl_id_combine` — a deterministic
rotate-and-xor-with-multiply mixing function on 32-bit ids (§4.6; the header
only declares the function).  The multiplier is the Knuth constant
2654435761. -/
def zgl_id_combine (a b : ℕ) : ℕ :=
  (rotl32 a 5 ^^^ b % 2 ^ 32) * 2654435761 % 2 ^ 32

/-- Modelled from the spec: `zgl_id` — FNV-1a 32-bit over the UTF-8 bytes of
the label (§4.6 offers FNV-1a 32-bit as the deterministic hash); the label is
given as its list of byte values. -/
def zgl_id (bytes : List ℕ) : ℕ :=
  bytes.foldl (fun h b => ((h ^^^ b % 256) * 16777619) % 2 ^ 32) 2166136261

/-- Byte values of the label "panel" (used by `test_widget_id_combine`). -/
def panelBytes : List ℕ := [112, 97, 110, 101, 108]

/-- Byte values of the label "button" (used by `test_widget_id_combine`). -/
def buttonBytes : List ℕ := [98, 117, 116, 116, 111, 110]

/-- GUI id-scope state: the pushed scope ids in order, plus the cached
current scope used by widget declarations. -/
structure GuiScope where
  stack : List ℕ
  curScope : ℕ
deriving DecidableEq

/-- Fresh scope state: empty stack, scope 0 (§4.6 default). -/
def guiScopeInit : GuiScope := ⟨[], 0⟩

/-- A scope-stack operation: `zgl_gui_push_id` or `zgl_gui_pop_id`. -/
inductive ScopeOp where
  | push (i : ℕ)
  | pop
deriving DecidableEq

/-- Modelled from the spec: `push_id` appends to the stack and folds the new
id into the cached scope; `pop_id` drops the top and recomputes the scope as
the left-fold of `combine` over the remaining stack (§4.6); popping an empty
stack is a no-op. -/
def applyScopeOp (g : GuiScope) : ScopeOp → GuiScope
  | .push i => ⟨g.stack ++ [i], zgl_id_combine g.curScope i⟩
  | .pop =>
    let st := g.stack.dropLast
    ⟨st, st.foldl zgl_id_combine 0⟩

/-- Scope state after a sequence of push/pop operations from the fresh
state. -/
def applyScopeOps (ops : List ScopeOp) : GuiScope :=
  ops.foldl applyScopeOp guiScopeInit

/-- Modelled from the spec: the effective identity `zgl_gui_widget` uses for
reconciliation: `combine(current_scope, declared_id)` (§4.6-§4.7). -/
def zgl_gui_widget_key (g : GuiScope) (declared : ℕ) : ℕ :=
  zgl_id_combine g.curScope declared

/- ============================================================ -/
/- Arena & node tree (Layer 1 state), modelled from the spec    -/
/- ============================================================ -/

/-- Node handles are 32-bit indices into the arena. -/
abbrev Handle := ℕ

/-- `ZGL_NULL`: the all-ones sentinel handle. -/
def SENTINEL : Handle := 4294967295

/-- `ZglError` codes from `zgl.h`. -/
inductive Err where
  | ok
  | outOfMemory
  | capacityExceeded
  | invalidNode
  | cycleDetected
deriving DecidableEq

/-- One arena slot (§3 node record; the solver-facing fields `rect` and
`fingerprint` live in the solver model, the reconciler fields are not needed
by the tree claims). -/
structure NodeSlot where
  inUse : Bool
  parent : Handle
  children : List Handle
  style : Style
  dirty : Bool
deriving DecidableEq

/-- A free (never used or freed) slot: links cleared (§4.1 `free` clears
links). -/
def blankSlot : NodeSlot :=
  { inUse := false, parent := SENTINEL, children := [], style := ZGL_STYLE_DEFAULT,
    dirty := false }

/-- Modelled from the spec: the layout engine's tree state — a
fixed-capacity slot array (capacity = `slots.length`, fixed at construction)
and the per-instance last-error slot.  The free list is exactly the set of
slots with `inUse = false` (§3 invariant), kept implicitly. -/
structure Layout where
  slots : List NodeSlot
  lastError : Err
deriving DecidableEq

/-- Slot of a handle (a blank slot for out-of-range handles, so that queries
on invalid handles read neutral data). -/
def slotOf (L : Layout) (h : Handle) : NodeSlot :=
  L.slots.getD h blankSlot

/-- `validate` (§4.1): in range and in use. -/
def isValid (L : Layout) (h : Handle) : Bool :=
  decide (h < L.slots.length) && (slotOf L h).inUse

/-- Replace one slot. -/
def setSlot (L : Layout) (i : ℕ) (s : NodeSlot) : Layout :=
  { L with slots := L.slots.set i s }

/-- Update one slot in place. -/
def updSlot (L : Layout) (i : ℕ) (f : NodeSlot → NodeSlot) : Layout :=
  setSlot L i (f (slotOf L i))

/-- `zgl_layout_create(max_nodes)`: all slots free (§4.1). -/
def zgl_layout_create (maxNodes : ℕ) : Layout :=
  { slots := List.replicate maxNodes blankSlot, lastError := .ok }

/-- `zgl_layout_node_count`: number of in-use slots. -/
def zgl_layout_node_count (L : Layout) : ℕ :=
  ((List.range L.slots.length).filter (fun i => (slotOf L i).inUse)).length

/-- One step along the parent links (`SENTINEL` is absorbing). -/
def parentStep (L : Layout) (h : Handle) : Handle :=
  if h = SENTINEL then SENTINEL else (slotOf L h).parent

/-- `k`-fold iteration of `parentStep`. -/
def parIter (L : Layout) : ℕ → Handle → Handle
  | 0, a => a
  | k + 1, a => parIter L k (parentStep L a)

/-- Bounded walk up the parent links: does the chain from `a` meet `t`
within `fuel` steps?  This is how the engine checks subtree membership
(§4.2 cycle check) and how §8 states the no-cycle invariant. -/
def reachesWithin (L : Layout) : ℕ → Handle → Handle → Bool
  | 0, a, t => decide (a = t)
  | fuel + 1, a, t =>
    decide (a = t) || (!decide (a = SENTINEL) && reachesWithin L fuel (parentStep L a) t)

/-- Modelled from the spec: mark a node and all its ancestors dirty (§4.3);
the walk is fuel-bounded by the capacity, which the no-cycle invariant makes
sufficient. -/
def markDirtyUp : Layout → ℕ → Handle → Layout
  | L, 0, _ => L
  | L, fuel + 1, h =>
    if isValid L h then
      markDirtyUp (updSlot L h (fun s => { s with dirty := true })) fuel (slotOf L h).parent
    else L

/-- First free slot, if any (§4.1 `alloc`; with the implicit free list the
lowest free index is recycled). -/
def findFree (L : Layout) : Option ℕ :=
  (List.range L.slots.length).find? (fun i => !(slotOf L i).inUse)

/-- Fresh in-use slot for `add`. -/
def newSlot (p : Handle) (st : Style) : NodeSlot :=
  { inUse := true, parent := p, children := [], style := st, dirty := false }

/-- Modelled from the spec: `zgl_layout_add(parent, style)` (§4.1-§4.2).
Allocation comes first: a full arena fails with `CAPACITY_EXCEEDED` and
changes nothing.  A sentinel parent creates a root; an invalid parent is a
no-op failing with `INVALID_NODE`; otherwise the child is appended to the
end of the parent's chain and the new node and all its ancestors are marked
dirty. -/
def zgl_layout_add (L : Layout) (p : Handle) (st : Style) : Layout × Handle :=
  match findFree L with
  | none => ({ L with lastError := .capacityExceeded }, SENTINEL)
  | some i =>
    if p = SENTINEL then
      (markDirtyUp (setSlot L i (newSlot SENTINEL st)) (L.slots.length + 1) i, i)
    else if isValid L p then
      let L1 := setSlot L i (newSlot p st)
      let L2 := updSlot L1 p (fun s => { s with children := s.children ++ [i] })
      (markDirtyUp L2 (L.slots.length + 1) i, i)
    else ({ L with lastError := .invalidNode }, SENTINEL)

/-- Modelled from the spec: `zgl_layout_remove(n)` (§4.2): frees the whole
subtree of `n` (every node whose parent chain meets `n`), detaches `n` from
its parent's chain, and marks the former parent and its ancestors dirty.
Invalid handles are no-ops failing with `INVALID_NODE`. -/
def zgl_layout_remove (L : Layout) (n : Handle) : Layout :=
  if isValid L n then
    let p := (slotOf L n).parent
    let len := L.slots.length
    let L1 : Layout :=
      { L with slots := (List.range len).map (fun i =>
          let s := slotOf L i
          if s.inUse && reachesWithin L len i n then blankSlot
          else if i = p then { s with children := s.children.erase n }
          else s) }
    if p = SENTINEL then L1 else markDirtyUp L1 (len + 1) p
  else { L with lastError := .invalidNode }

/-- Modelled from the spec: `zgl_layout_set_style(n, style)` (§4.2):
overwrite the style, mark `n` and its ancestors dirty. -/
def zgl_layout_set_style (L : Layout) (n : Handle) (st : Style) : Layout :=
  if isValid L n then
    markDirtyUp (updSlot L n (fun s => { s with style := st })) (L.slots.length + 1) n
  else { L with lastError := .invalidNode }

/-- Modelled from the spec: `zgl_layout_reparent(n, new_parent)` (§4.2):
fails with `CYCLE_DETECTED` when the proposed parent lies in the subtree of
`n` (the parent chain of `new_parent` meets `n`, including `new_parent = n`),
leaving the tree untouched; otherwise detaches `n`, appends it to the new
parent's chain (or makes it a root), and marks `n`, the old parent and the
new parent dirty with their ancestors. -/
def zgl_layout_reparent (L : Layout) (n p : Handle) : Layout :=
  if !isValid L n then { L with lastError := .invalidNode }
  else if !decide (p = SENTINEL) && !isValid L p then { L with lastError := .invalidNode }
  else if reachesWithin L L.slots.length p n then { L with lastError := .cycleDetected }
  else
    let oldp := (slotOf L n).parent
    let L1 := if oldp = SENTINEL then L
      else updSlot L oldp (fun s => { s with children := s.children.erase n })
    let L2 := updSlot L1 n (fun s => { s with parent := p })
    let L3 := if p = SENTINEL then L2
      else updSlot L2 p (fun s => { s with children := s.children ++ [n] })
    let L4 := markDirtyUp L3 (L3.slots.length + 1) n
    let L5 := if oldp = SENTINEL then L4 else markDirtyUp L4 (L4.slots.length + 1) oldp
    if p = SENTINEL then L5 else markDirtyUp L5 (L5.slots.length + 1) p

/-- A handle denotes a live node: in range and in use. -/
def ValidP (L : Layout) (h : Handle) : Prop :=
  h < L.slots.length ∧ (slotOf L h).inUse = true

/-- Parent links are sound: a live node's parent is the sentinel or a live
node holding it exactly once in its child chain (§8 invariant). -/
def ParentOk (L : Layout) : Prop :=
  ∀ h, h < L.slots.length → (slotOf L h).inUse = true →
    (slotOf L h).parent = SENTINEL ∨
      (ValidP L (slotOf L h).parent ∧ ((slotOf L (slotOf L h).parent).children.count h = 1))

/-- Child chains are sound: every listed child is a live node whose parent
link points back. -/
def ChildrenOk (L : Layout) : Prop :=
  ∀ h, h < L.slots.length → (slotOf L h).inUse = true →
    ∀ c ∈ (slotOf L h).children, ValidP L c ∧ (slotOf L c).parent = h

/-- Child chains carry no duplicates. -/
def NodupOk (L : Layout) : Prop :=
  ∀ h, h < L.slots.length → (slotOf L h).inUse = true → (slotOf L h).children.Nodup

/-- Slots not in use are blank (links cleared on free, §4.1); this is the
free-list/`in_use` consistency of §3. -/
def FreeClean (L : Layout) : Prop :=
  ∀ h, h < L.slots.length → (slotOf L h).inUse = false → slotOf L h = blankSlot

/-- The parent relation admits a ranking, i.e. is acyclic. -/
def Ranked (L : Layout) : Prop :=
  ∃ d : ℕ → ℕ, ∀ h, h < L.slots.length → (slotOf L h).inUse = true →
    (slotOf L h).parent ≠ SENTINEL → d (slotOf L h).parent < d h

/-- Well-formed engine state: capacity within handle range, sound parent and
child links, duplicate-free chains, blank free slots, acyclic parents.
Every state reachable through the engine operations satisfies this. -/
def WF (L : Layout) : Prop :=
  L.slots.length ≤ SENTINEL ∧ ParentOk L ∧ ChildrenOk L ∧ NodupOk L ∧ FreeClean L ∧ Ranked L

/-- The forest invariant exactly as claimed (§8): for every live node, the
parent is sentinel or live, the node sits exactly once in its parent's
sibling chain, and the parent walk reaches the sentinel within `node_count`
steps. -/
def ForestInv (L : Layout) : Prop :=
  ∀ h, h < L.slots.length → (slotOf L h).inUse = true →
    ((slotOf L h).parent = SENTINEL ∨ ValidP L (slotOf L h).parent) ∧
    ((slotOf L h).parent ≠ SENTINEL →
      (slotOf L (slotOf L h).parent).children.count h = 1) ∧
    reachesWithin L (zgl_layout_node_count L) h SENTINEL = true

/-- `new_parent` lies in the subtree rooted at `n` (including `n` itself):
the parent chain from `new_parent` meets `n` within the capacity bound. -/
def InSubtree (L : Layout) (n p : Handle) : Prop :=
  reachesWithin L L.slots.length p n = true

/- ============================================================ -/
/- Concrete states used by the scenario theorems and witnesses  -/
/- ============================================================ -/

/-- A dirty node with empty cache (as freshly added), given a sibling. -/
def leafN (s : Style) (ns : NTree) : NTree :=
  .node s true none ⟨0, 0, 0, 0⟩ .nil ns

/-- Scenario 6 container: `{COLUMN, 100×200, justify:SPACE_BETWEEN}`. -/
def contC1 : Style :=
  { ZGL_STYLE_DEFAULT with width := 100, height := 200, justify := .spaceBetween }

/-- Scenario 6 child: `{100×50}`. -/
def childC1 : Style := { ZGL_STYLE_DEFAULT with width := 100, height := 50 }

/-- Scenario 6 tree: one container, two children. -/
def treeC1 : NTree :=
  .node contC1 true none ⟨0, 0, 0, 0⟩ (leafN childC1 (leafN childC1 .nil)) .nil

/-- Overflow container `{COLUMN, 100×100, justify:SPACE_BETWEEN}`. -/
def contCex : Style :=
  { ZGL_STYLE_DEFAULT with width := 100, height := 100, justify := .spaceBetween }

/-- Unshrinkable child taller than the overflow container. -/
def childCex : Style := { ZGL_STYLE_DEFAULT with height := 80, flex_shrink := 0 }

/-- Overflowing SPACE_BETWEEN tree: two 80-tall rigid children in a 100-tall
container. -/
def treeCex : NTree :=
  .node contCex true none ⟨0, 0, 0, 0⟩ (leafN childCex (leafN childCex .nil)) .nil

/-- Scenario 5 container with SPACE_AROUND: `{COLUMN, 200×200}`. -/
def contC9 : Style :=
  { ZGL_STYLE_DEFAULT with width := 200, height := 200, justify := .spaceAround }

/-- Scenario 5 child: `{200×50}`. -/
def childC9 : Style := { ZGL_STYLE_DEFAULT with width := 200, height := 50 }

/-- Scenario 5 tree under SPACE_AROUND: one container, one child. -/
def treeC9 : NTree :=
  .node contC9 true none ⟨0, 0, 0, 0⟩ (leafN childC9 .nil) .nil

/-- A default-styled container given a fixed 100×100 size. -/
def contC10 : Style := { ZGL_STYLE_DEFAULT with width := 100, height := 100 }

/-- A default-styled child given only a height of 80 (width stays AUTO,
flex defaults stand). -/
def childC10 : Style := { ZGL_STYLE_DEFAULT with height := 80 }

/-- Two 80-tall default children in a 100-tall default container: overflow
resolved by the default `flex_shrink = 1`, cross axis by the default
STRETCH. -/
def treeC10 : NTree :=
  .node contC10 true none ⟨0, 0, 0, 0⟩ (leafN childC10 (leafN childC10 .nil)) .nil

/-- A one-slot engine holding one root: the arena is full. -/
def sampleFull : Layout :=
  (zgl_layout_add (zgl_layout_create 1) SENTINEL ZGL_STYLE_DEFAULT).1

/-- A two-slot engine holding a root (handle 0) and its child (handle 1). -/
def sampleTwo : Layout :=
  (zgl_layout_add (zgl_layout_add (zgl_layout_create 2) SENTINEL ZGL_STYLE_DEFAULT).1
    0 ZGL_STYLE_DEFAULT).1

/-- Rect of child `i` of the first root after solving state `⟨t, 0, 0⟩` at
viewport 800×600 (the viewport of the concrete scenarios). -/
def childRect (t : NTree) (i : ℕ) : Rect :=
  rectOfN (chainGet (firstOfN (chainGet (zgl_layout_compute 800 600 ⟨t, 0, 0⟩).tree 0)) i)

instance decValidP (L : Layout) (h : Handle) : Decidable (ValidP L h) :=
  inferInstanceAs (Decidable (_ ∧ _))

instance decParentOk (L : Layout) : Decidable (ParentOk L) := by
  unfold ParentOk; infer_instance

instance decChildrenOk (L : Layout) : Decidable (ChildrenOk L) := by
  unfold ChildrenOk; infer_instance

instance decNodupOk (L : Layout) : Decidable (NodupOk L) := by
  unfold NodupOk; infer_instance

instance decFreeClean (L : Layout) : Decidable (FreeClean L) := by
  unfold FreeClean; infer_instance

instance decForestInv (L : Layout) : Decidable (ForestInv L) := by
  unfold ForestInv; infer_instance

instance decInSubtree (L : Layout) (n p : Handle) : Decidable (InSubtree L n p) :=
  inferInstanceAs (Decidable (_ = true))

/- ============================================================ -/
/- Solver lemmas                                                -/
/- ============================================================ -/

theorem chainStyles_solveChain (t : NTree) :
    ∀ finals, chainStyles (solveChain t finals).1 = chainStyles t := by
  induction t with
  | nil => intro finals; simp [solveChain, chainStyles]
  | node s d fp r fc ns ihfc ihns =>
    intro finals
    cases finals with
    | nil => simp [solveChain]
    | cons bc rest =>
      by_cases hc : d = false ∧ fp = some (s, bc.cw, bc.ch)
      · simp [solveChain, if_pos hc, chainStyles, ihns]
      · simp [solveChain, if_neg hc, chainStyles, ihns]

theorem chainStyles_length (t : NTree) : (chainStyles t).length = chainLength t := by
  induction t with
  | nil => simp [chainStyles, chainLength]
  | node s d fp r fc ns ihfc ihns => simp [chainStyles, chainLength, ihns]

theorem solveChain_idem (t : NTree) :
    ∀ finals, solveChain (solveChain t finals).1 finals
      = ((solveChain t finals).1, min (chainLength t) finals.length, 0) := by
  induction t with
  | nil => intro finals; simp [solveChain, chainLength]
  | node s d fp r fc ns ihfc ihns =>
    intro finals
    cases finals with
    | nil => simp [solveChain, chainLength]
    | cons bc rest =>
      by_cases hc : d = false ∧ fp = some (s, bc.cw, bc.ch)
      · simp only [solveChain, if_pos hc]
        have h2 : (false = false ∧ fp = some (s, bc.cw, bc.ch)) := ⟨rfl, hc.2⟩
        simp only [solveChain, if_pos h2, ihns, chainLength, List.length_cons]
        simp [Nat.succ_min_succ]
        exact hc.2
      · simp only [solveChain, if_neg hc]
        have h2 : (false = false ∧ (some (s, bc.cw, bc.ch) : Option (Style × ℚ × ℚ))
            = some (s, bc.cw, bc.ch)) := ⟨rfl, rfl⟩
        simp only [solveChain, if_pos h2, ihns, chainLength, List.length_cons]
        simp [Nat.succ_min_succ]

theorem rootFinals_solveChain (w h : ℚ) (t : NTree) (finals : List BoxC) :
    rootFinals w h (solveChain t finals).1 = rootFinals w h t := by
  simp [rootFinals, chainStyles_solveChain]

theorem rootFinals_length (w h : ℚ) (t : NTree) :
    (rootFinals w h t).length = chainLength t := by
  simp [rootFinals, chainStyles_length]

theorem chainLength_pos_of_ne_nil (t : NTree) (ht : t ≠ .nil) : chainLength t ≠ 0 := by
  cases t with
  | nil => exact absurd rfl ht
  | node s d fp r fc ns => simp [chainLength]

theorem clampSize_nonneg (v lo hi : ℚ) : 0 ≤ clampSize v lo hi := by
  simp only [clampSize]
  exact le_trans (le_max_left 0 lo) (le_max_left _ _)

theorem resolveLen_nonneg (v lo hi provided : ℚ) : 0 ≤ resolveLen v lo hi provided := by
  simp only [resolveLen]
  split
  · exact le_max_left 0 provided
  · exact clampSize_nonneg v lo hi

theorem baseMain_nonneg (dir : Dir) (s : Style) : 0 ≤ baseMain dir s := by
  simp only [baseMain]
  split
  · exact le_refl 0
  · exact clampSize_nonneg _ _ _

theorem crossSizeOf_nonneg (S : Style) (C : ℚ) (cs : Style) (hC : 0 ≤ C) :
    0 ≤ crossSizeOf S C cs := by
  simp only [crossSizeOf]
  split
  · split
    · exact hC
    · exact le_refl 0
  · exact clampSize_nonneg _ _ _

theorem applyDist_length (f sw : ℚ) (items : List GItem) :
    (applyDist f sw items).1.length = items.length := by
  induction items with
  | nil => simp [applyDist]
  | cons it rest ih =>
    simp only [applyDist]
    split
    · simp [ih]
    · simp [ih]

theorem applyDist_nonneg (f sw : ℚ) (items : List GItem)
    (hs : ∀ it ∈ items, 0 ≤ it.size) :
    ∀ it ∈ (applyDist f sw items).1, 0 ≤ it.size := by
  induction items with
  | nil => simp [applyDist]
  | cons it rest ih =>
    have hrest := ih (fun x hx => hs x (List.mem_cons_of_mem it hx))
    simp only [applyDist]
    split
    · intro x hx
      rcases List.mem_cons.mp hx with h | h
      · exact h ▸ hs it (List.mem_cons_self it rest)
      · exact hrest x h
    · intro x hx
      rcases List.mem_cons.mp hx with h | h
      · subst h; exact clampSize_nonneg _ _ _
      · exact hrest x h

theorem distLoop_length (fuel : ℕ) : ∀ (f : ℚ) (items : List GItem),
    (distLoop fuel f items).length = items.length := by
  induction fuel with
  | zero => intro f items; simp [distLoop]
  | succ fuel ih =>
    intro f items
    simp only [distLoop]
    split
    · rfl
    · split
      · rfl
      · rw [ih, applyDist_length]

theorem distLoop_nonneg (fuel : ℕ) : ∀ (f : ℚ) (items : List GItem),
    (∀ it ∈ items, 0 ≤ it.size) → ∀ it ∈ distLoop fuel f items, 0 ≤ it.size := by
  induction fuel with
  | zero => intro f items hs; simpa [distLoop] using hs
  | succ fuel ih =>
    intro f items hs
    simp only [distLoop]
    split
    · exact hs
    · split
      · exact hs
      · exact ih _ _ (applyDist_nonneg _ _ _ hs)

theorem mainDist_length (S : Style) (M : ℚ) (styles : List Style) :
    (mainDist S M styles).length = styles.length := by
  simp only [mainDist]
  split
  · simp
  · rw [List.length_map, distLoop_length, List.length_zipWith, List.length_map, min_self]

theorem mem_zipWith_imp {α β γ : Type} {f : α → β → γ} :
    ∀ (as : List α) (bs : List β), ∀ x ∈ List.zipWith f as bs,
      ∃ a ∈ as, ∃ b ∈ bs, x = f a b := by
  intro as
  induction as with
  | nil => intro bs x hx; simp at hx
  | cons a as ih =>
    intro bs x hx
    cases bs with
    | nil => simp at hx
    | cons b bs =>
      rcases List.mem_cons.mp hx with h | h
      · exact ⟨a, List.mem_cons_self a as, b, List.mem_cons_self b bs, h⟩
      · rcases ih bs x h with ⟨a2, ha2, b2, hb2, hx2⟩
        exact ⟨a2, List.mem_cons_of_mem a ha2, b2, List.mem_cons_of_mem b hb2, hx2⟩

theorem mainDist_nonneg (S : Style) (M : ℚ) (styles : List Style) :
    ∀ x ∈ mainDist S M styles, 0 ≤ x := by
  simp only [mainDist]
  split
  · intro x hx
    rcases List.mem_map.mp hx with ⟨cs, _, rfl⟩
    exact baseMain_nonneg _ _
  · intro x hx
    rcases List.mem_map.mp hx with ⟨it, hit, rfl⟩
    refine distLoop_nonneg _ _ _ ?_ it hit
    intro it2 hit2
    rcases mem_zipWith_imp _ _ it2 hit2 with ⟨b, hb, cs, hcs, hit3⟩
    rcases List.mem_map.mp hb with ⟨cs2, _, rfl⟩
    subst hit3
    exact baseMain_nonneg _ _

theorem scanPos_length (between : ℚ) : ∀ (cur : ℚ) (sizes : List ℚ),
    (scanPos between cur sizes).length = sizes.length := by
  intro cur sizes
  induction sizes generalizing cur with
  | nil => simp [scanPos]
  | cons s rest ih => simp [scanPos, ih]

theorem zipFinals_length (dir : Dir) (x0 y0 : ℚ) :
    ∀ (ps ss : List ℚ) (cs : List (ℚ × ℚ)),
      ps.length = ss.length → ss.length = cs.length →
      (zipFinals dir x0 y0 ps ss cs).length = ps.length := by
  intro ps
  induction ps with
  | nil =>
    intro ss cs h1 h2
    simp [zipFinals]
  | cons p pt ih =>
    intro ss cs h1 h2
    cases ss with
    | nil => simp at h1
    | cons s st =>
      cases cs with
      | nil => simp at h2
      | cons c ct =>
        simp only [List.length_cons] at h1 h2
        cases c with
        | mk xs off =>
          simp only [zipFinals, List.length_cons]
          rw [ih st ct (by omega) (by omega)]

theorem zipFinals_nonneg (dir : Dir) (x0 y0 : ℚ) :
    ∀ (ps ss : List ℚ) (cs : List (ℚ × ℚ)),
      (∀ s ∈ ss, 0 ≤ s) → (∀ c ∈ cs, 0 ≤ c.1) →
      ∀ bc ∈ zipFinals dir x0 y0 ps ss cs, 0 ≤ bc.cw ∧ 0 ≤ bc.ch := by
  intro ps
  induction ps with
  | nil =>
    intro ss cs hs hc bc hbc
    simp [zipFinals] at hbc
  | cons p pt ih =>
    intro ss cs hs hc bc hbc
    cases ss with
    | nil => simp [zipFinals] at hbc
    | cons s st =>
      cases cs with
      | nil => simp [zipFinals] at hbc
      | cons c ct =>
        cases c with
        | mk xs off =>
          simp only [zipFinals] at hbc
          have hhead : 0 ≤ s := hs s (List.mem_cons_self s st)
          have hxs : 0 ≤ xs := hc (xs, off) (List.mem_cons_self _ ct)
          rcases List.mem_cons.mp hbc with h | h
          · subst h
            cases dir with
            | row => exact ⟨hhead, hxs⟩
            | column => exact ⟨hxs, hhead⟩
          · exact ih st ct (fun x hx => hs x (List.mem_cons_of_mem s hx))
              (fun x hx => hc x (List.mem_cons_of_mem _ hx)) bc h

theorem childFinals_length (S : Style) (M C x0 y0 : ℚ) (styles : List Style) :
    (childFinals S M C x0 y0 styles).length = styles.length := by
  simp only [childFinals]
  rw [zipFinals_length _ _ _ _ _ _ (by rw [scanPos_length])
    (by rw [mainDist_length, List.length_map])]
  rw [scanPos_length, mainDist_length]

theorem childFinals_nonneg (S : Style) (M C x0 y0 : ℚ) (styles : List Style) (hC : 0 ≤ C) :
    ∀ bc ∈ childFinals S M C x0 y0 styles, 0 ≤ bc.cw ∧ 0 ≤ bc.ch := by
  simp only [childFinals]
  refine zipFinals_nonneg _ _ _ _ _ _ (mainDist_nonneg S M styles) ?_
  intro c hc
  rcases List.mem_map.mp hc with ⟨cs, _, rfl⟩
  exact crossSizeOf_nonneg S C cs hC

theorem solveChain_allClean (t : NTree) :
    ∀ finals, dirtyClosedB t = true → finals.length = chainLength t →
      allCleanB (solveChain t finals).1 = true := by
  induction t with
  | nil => intro finals _ _; simp [solveChain, allCleanB]
  | node s d fp r fc ns ihfc ihns =>
    intro finals hdc hlen
    rcases finals with _ | ⟨bc, rest⟩
    · simp [chainLength] at hlen
    · simp only [dirtyClosedB, Bool.and_eq_true] at hdc
      obtain ⟨⟨hor, hdcfc⟩, hdcns⟩ := hdc
      simp only [chainLength, List.length_cons] at hlen
      have hfcrec : ∀ cf : List BoxC, cf.length = chainLength fc →
          allCleanB (solveChain fc cf).1 = true := fun cf hl => ihfc cf hdcfc hl
      have hnsrec := ihns rest hdcns (by omega)
      by_cases hc : d = false ∧ fp = some (s, bc.cw, bc.ch)
      · have hfcclean : allCleanB fc = true := by
          rw [hc.1] at hor
          simpa using hor
        simp only [solveChain, if_pos hc, allCleanB]
        simp [hfcclean, hnsrec]
      · simp only [solveChain, if_neg hc, allCleanB]
        simp [hfcrec, childFinals_length, chainStyles_length, hnsrec]

theorem allClean_dirtyCount (t : NTree) (h : allCleanB t = true) : dirtyCountN t = 0 := by
  induction t with
  | nil => simp [dirtyCountN]
  | node s d fp r fc ns ihfc ihns =>
    simp only [allCleanB, Bool.and_eq_true] at h
    obtain ⟨⟨hd, hfc⟩, hns⟩ := h
    simp only [dirtyCountN, ihfc hfc, ihns hns]
    simp [show d = false by simpa using hd]

theorem solveChain_nonneg (t : NTree) :
    ∀ finals, (∀ bc ∈ finals, 0 ≤ bc.cw ∧ 0 ≤ bc.ch) → rectsNonnegB t = true →
      rectsNonnegB (solveChain t finals).1 = true := by
  induction t with
  | nil => intro finals _ _; simp [solveChain, rectsNonnegB]
  | node s d fp r fc ns ihfc ihns =>
    intro finals hfin hnn
    simp only [rectsNonnegB, Bool.and_eq_true, decide_eq_true_eq] at hnn
    obtain ⟨⟨⟨hw, hh⟩, hnnfc⟩, hnnns⟩ := hnn
    rcases finals with _ | ⟨bc, rest⟩
    · simp only [solveChain, rectsNonnegB, Bool.and_eq_true, decide_eq_true_eq]
      exact ⟨⟨⟨hw, hh⟩, hnnfc⟩, hnnns⟩
    · have hbc := hfin bc (List.mem_cons_self bc rest)
      have hrest : ∀ x ∈ rest, 0 ≤ x.cw ∧ 0 ≤ x.ch :=
        fun x hx => hfin x (List.mem_cons_of_mem bc hx)
      have hnsrec := ihns rest hrest hnnns
      by_cases hc : d = false ∧ fp = some (s, bc.cw, bc.ch)
      · simp only [solveChain, if_pos hc, rectsNonnegB, Bool.and_eq_true, decide_eq_true_eq]
        exact ⟨⟨⟨hw, hh⟩, hnnfc⟩, hnsrec⟩
      · simp only [solveChain, if_neg hc, rectsNonnegB, Bool.and_eq_true, decide_eq_true_eq]
        refine ⟨⟨⟨hbc.1, hbc.2⟩, ?_⟩, hnsrec⟩
        refine ihfc _ ?_ hnnfc
        refine childFinals_nonneg _ _ _ _ _ _ ?_
        cases s.direction <;> exact le_max_left 0 _

/- ============================================================ -/
/- Claim theorems: solver                                       -/
/- ============================================================ -/

/-- C2 (amended): for every tree and viewport, two consecutive
`compute(w, h)` calls without mutations leave the whole solved forest —
in particular every node's rect — unchanged; and whenever the tree is
non-empty (at least one root), the second call's cache hit rate is 1.
(For the empty tree the rate is 0, see the counterexample.) -/
theorem C2_compute_idempotent_cache (st : LState) (w h : ℚ) :
    (zgl_layout_compute w h (zgl_layout_compute w h st)).tree
      = (zgl_layout_compute w h st).tree ∧
    (st.tree ≠ .nil →
      zgl_layout_cache_hit_rate (zgl_layout_compute w h (zgl_layout_compute w h st)) = 1) := by
  have hidem := solveChain_idem st.tree (rootFinals w h st.tree)
  have h2 : zgl_layout_compute w h (zgl_layout_compute w h st)
      = ⟨(solveChain (solveChain st.tree (rootFinals w h st.tree)).1 (rootFinals w h st.tree)).1,
         (solveChain (solveChain st.tree (rootFinals w h st.tree)).1 (rootFinals w h st.tree)).2.1,
         (solveChain (solveChain st.tree (rootFinals w h st.tree)).1 (rootFinals w h st.tree)).2.2⟩ := by
    show (⟨_, _, _⟩ : LState) = _
    rw [show (zgl_layout_compute w h st).tree = (solveChain st.tree (rootFinals w h st.tree)).1
      from rfl, rootFinals_solveChain]
  constructor
  · rw [h2, hidem]
    exact rfl
  · intro hne
    have hcl : chainLength st.tree ≠ 0 := chainLength_pos_of_ne_nil st.tree hne
    rw [h2, hidem]
    simp only [zgl_layout_cache_hit_rate, rootFinals_length, min_self]
    rw [if_neg (by simpa using hcl)]
    push_cast
    rw [add_zero, div_self (by exact_mod_cast hcl)]

/-- C2 counterexample: on the empty tree both computes perform no cache
lookup, so the hit rate after the second compute is 0, not 1 as claimed for
every tree. -/
theorem C2_empty_tree_cex :
    zgl_layout_cache_hit_rate
      (zgl_layout_compute 800 600 (zgl_layout_compute 800 600 ⟨.nil, 0, 0⟩)) = 0 ∧
    (0 : ℚ) ≠ 1 := by
  constructor
  · simp [zgl_layout_compute, rootFinals, chainStyles, solveChain, zgl_layout_cache_hit_rate]
  · norm_num

/-- C2 witness: a one-node tree computed twice at viewport 800×600 really
reaches hit rate 1 on the second compute. -/
theorem C2_compute_idempotent_cache_witness :
    (⟨leafN ZGL_STYLE_DEFAULT .nil, 0, 0⟩ : LState).tree ≠ .nil ∧
    zgl_layout_cache_hit_rate
      (zgl_layout_compute 800 600
        (zgl_layout_compute 800 600 ⟨leafN ZGL_STYLE_DEFAULT .nil, 0, 0⟩)) = 1 :=
  ⟨by simp [leafN], (C2_compute_idempotent_cache ⟨leafN ZGL_STYLE_DEFAULT .nil, 0, 0⟩ 800 600).2
    (by simp [leafN])⟩

/-- C3: for every engine state whose dirty set is upward closed and whose
stored rects are non-negative (both hold in every reachable state), a
`compute` leaves no dirty node and every computed rect has `w ≥ 0 ∧ h ≥ 0`. -/
theorem C3_compute_clears_dirty_rects_nonneg (st : LState) (w h : ℚ)
    (hdc : dirtyClosedB st.tree = true) (hnn : rectsNonnegB st.tree = true) :
    dirtyCountN (zgl_layout_compute w h st).tree = 0 ∧
    rectsNonnegB (zgl_layout_compute w h st).tree = true := by
  have htree : (zgl_layout_compute w h st).tree
      = (solveChain st.tree (rootFinals w h st.tree)).1 := rfl
  constructor
  · rw [htree]
    exact allClean_dirtyCount _
      (solveChain_allClean st.tree _ hdc (rootFinals_length w h st.tree))
  · rw [htree]
    refine solveChain_nonneg st.tree _ ?_ hnn
    intro bc hbc
    simp only [rootFinals] at hbc
    rcases List.mem_map.mp hbc with ⟨cs, _, rfl⟩
    exact ⟨resolveLen_nonneg _ _ _ _, resolveLen_nonneg _ _ _ _⟩

/-- C3 witness: the scenario-5 SPACE_AROUND tree (all nodes dirty, zero
rects) satisfies both hypotheses, and the compute at 800×600 leaves zero
dirty nodes. -/
theorem C3_compute_clears_dirty_rects_nonneg_witness :
    (dirtyClosedB treeC9 = true ∧ rectsNonnegB treeC9 = true) ∧
    dirtyCountN (zgl_layout_compute 800 600 ⟨treeC9, 0, 0⟩).tree = 0 :=
  ⟨⟨by simp [treeC9, leafN, dirtyClosedB, allCleanB, rectsNonnegB],
    by simp [treeC9, leafN, dirtyClosedB, allCleanB, rectsNonnegB]⟩,
   (C3_compute_clears_dirty_rects_nonneg ⟨treeC9, 0, 0⟩ 800 600
     (by simp [treeC9, leafN, dirtyClosedB, allCleanB])
     (by simp [treeC9, leafN, rectsNonnegB])).1⟩

/-- C1 (amended): scenario 6 — the COLUMN 100×200 SPACE_BETWEEN container
with two 100×50 children places them at y = 0 and y = 150 under
`compute(800, 600)`; and in general, for every container with more than one
child and non-negative remaining main-axis space, SPACE_BETWEEN uses
`leading = 0` and `between = gap + (M − used)/(n − 1)`.  (With negative
remaining space the solver forces `between = gap` instead, see the
counterexample.) -/
theorem C1_space_between_layout :
    ((childRect treeC1 0).y = 0 ∧ (childRect treeC1 1).y = 150) ∧
    ∀ (gap M used : ℚ) (n : ℕ), 1 < n → 0 ≤ M - used →
      placeParams .spaceBetween gap M used n = (0, gap + (M - used) / ((n : ℚ) - 1)) := by
  constructor
  · norm_num [childRect, zgl_layout_compute, rootFinals, chainStyles, solveChain, childFinals,
      mainDist, baseMain, mainOf, crossOf, clampSize, resolveLen, distLoop, sumUnfrozen,
      applyDist, justifyParams, placeParams, scanPos, crossSizeOf, crossOffsetOf, zipFinals,
      chainGet, rectOfN, firstOfN, leafN, treeC1, contC1, childC1, ZGL_STYLE_DEFAULT,
      ZGL_AUTO, ZGL_NONE]
  · intro gap M used n hn hfree
    simp only [placeParams, if_neg (not_lt.mpr hfree), justifyParams, if_pos hn]

/-- C1 counterexample: with negative remaining space the claimed formula
fails — two rigid (flex_shrink 0) 80-tall children in a 100-tall
SPACE_BETWEEN column land at y = 0 and y = 80 (the solver forces
`between = gap = 0`), while `gap + (M − used)/(n − 1) = −60` would put the
second child at y = 20. -/
theorem C1_space_between_overflow_cex :
    (childRect treeCex 0).y = 0 ∧ (childRect treeCex 1).y = 80 ∧
    placeParams .spaceBetween 0 100 160 2 = (0, 0) ∧
    ¬ ((80 : ℚ) = 0 + 80 + (0 + (100 - 160) / ((2 : ℚ) - 1))) := by
  norm_num [childRect, zgl_layout_compute, rootFinals, chainStyles, solveChain, childFinals,
    mainDist, baseMain, mainOf, crossOf, clampSize, resolveLen, distLoop, sumUnfrozen,
    applyDist, justifyParams, placeParams, scanPos, crossSizeOf, crossOffsetOf, zipFinals,
    chainGet, rectOfN, firstOfN, leafN, treeCex, contCex, childCex, ZGL_STYLE_DEFAULT,
    ZGL_AUTO, ZGL_NONE]

/-- C1 witness: the general SPACE_BETWEEN clause instantiated at
gap = 0, M = 200, used = 100, n = 2. -/
theorem C1_space_between_layout_witness :
    ((1 : ℕ) < 2 ∧ (0 : ℚ) ≤ 200 - 100) ∧
    placeParams .spaceBetween 0 200 100 2 = (0, 0 + (200 - 100) / ((2 : ℚ) - 1)) :=
  ⟨⟨by norm_num, by norm_num⟩,
   C1_space_between_layout.2 0 200 100 2 (by norm_num) (by norm_num)⟩

/-- C9: for every container with SPACE_AROUND, `n ≥ 1` children and
non-negative free space, the solver uses
`leading = (M − used + between2)/2` with `between2 = (M − used)/n` and
`between = gap + (M − used)/n`; applying this to scenario 5's 200×200
container with one 200×50 child under SPACE_AROUND puts the child at
y = 150. -/
theorem C9_space_around_params :
    (∀ (gap M used : ℚ) (n : ℕ), 1 ≤ n → 0 ≤ M - used →
      placeParams .spaceAround gap M used n
        = ((M - used + (M - used) / (n : ℚ)) / 2, gap + (M - used) / (n : ℚ))) ∧
    (childRect treeC9 0).y = 150 := by
  constructor
  · intro gap M used n hn hfree
    simp only [placeParams, if_neg (not_lt.mpr hfree), justifyParams]
  · norm_num [childRect, zgl_layout_compute, rootFinals, chainStyles, solveChain, childFinals,
      mainDist, baseMain, mainOf, crossOf, clampSize, resolveLen, distLoop, sumUnfrozen,
      applyDist, justifyParams, placeParams, scanPos, crossSizeOf, crossOffsetOf, zipFinals,
      chainGet, rectOfN, firstOfN, leafN, treeC9, contC9, childC9, ZGL_STYLE_DEFAULT,
      ZGL_AUTO, ZGL_NONE]

/-- C9 witness: the SPACE_AROUND clause instantiated at gap = 0, M = 200,
used = 50, n = 1. -/
theorem C9_space_around_params_witness :
    ((1 : ℕ) ≤ 1 ∧ (0 : ℚ) ≤ 200 - 50) ∧
    placeParams .spaceAround 0 200 50 1
      = ((200 - 50 + (200 - 50) / ((1 : ℕ) : ℚ)) / 2, 0 + (200 - 50) / ((1 : ℕ) : ℚ)) :=
  ⟨⟨le_refl 1, by norm_num⟩,
   C9_space_around_params.1 0 200 50 1 (le_refl 1) (by norm_num)⟩

/-- C10: `ZGL_STYLE_DEFAULT` has direction COLUMN, justify START, align
STRETCH, flex_grow 0, flex_shrink 1, width/height AUTO (−1), mins 0, maxes
NONE (1e30), gap and all paddings 0; consequently default-styled nodes can
shrink (positive flex_shrink) and stretch on the cross axis: two 80-tall
default children of a 100×100 default container are shrunk to height 50 and
stretched to the full 100 width. -/
theorem C10_style_default :
    ZGL_STYLE_DEFAULT.direction = Dir.column ∧
    ZGL_STYLE_DEFAULT.justify = Justify.start ∧
    ZGL_STYLE_DEFAULT.align = Align.stretch ∧
    ZGL_STYLE_DEFAULT.flex_grow = 0 ∧
    ZGL_STYLE_DEFAULT.flex_shrink = 1 ∧
    ZGL_STYLE_DEFAULT.width = ZGL_AUTO ∧ ZGL_AUTO = -1 ∧
    ZGL_STYLE_DEFAULT.height = ZGL_AUTO ∧
    ZGL_STYLE_DEFAULT.min_width = 0 ∧ ZGL_STYLE_DEFAULT.min_height = 0 ∧
    ZGL_STYLE_DEFAULT.max_width = ZGL_NONE ∧ ZGL_NONE = 10 ^ 30 ∧
    ZGL_STYLE_DEFAULT.max_height = ZGL_NONE ∧
    ZGL_STYLE_DEFAULT.gap = 0 ∧
    ZGL_STYLE_DEFAULT.padding_top = 0 ∧ ZGL_STYLE_DEFAULT.padding_right = 0 ∧
    ZGL_STYLE_DEFAULT.padding_bottom = 0 ∧ ZGL_STYLE_DEFAULT.padding_left = 0 ∧
    0 < ZGL_STYLE_DEFAULT.flex_shrink ∧
    (childRect treeC10 0).height = 50 ∧ (childRect treeC10 0).width = 100 ∧
    (childRect treeC10 1).y = 50 := by
  refine ⟨rfl, rfl, rfl, rfl, rfl, rfl, rfl, rfl, rfl, rfl, rfl, rfl, rfl, rfl, rfl, rfl,
    rfl, rfl, by norm_num [ZGL_STYLE_DEFAULT], ?_⟩
  norm_num [childRect, zgl_layout_compute, rootFinals, chainStyles, solveChain, childFinals,
    mainDist, baseMain, mainOf, crossOf, clampSize, resolveLen, distLoop, sumUnfrozen,
    applyDist, justifyParams, placeParams, scanPos, crossSizeOf, crossOffsetOf, zipFinals,
    chainGet, rectOfN, firstOfN, leafN, treeC10, contC10, childC10, ZGL_STYLE_DEFAULT,
    ZGL_AUTO, ZGL_NONE]

/- ============================================================ -/
/- Claim theorems: identity and scope stack                     -/
/- ============================================================ -/

theorem scope_inv_step (g : GuiScope) (op : ScopeOp)
    (h : g.curScope = g.stack.foldl zgl_id_combine 0) :
    (applyScopeOp g op).curScope = (applyScopeOp g op).stack.foldl zgl_id_combine 0 := by
  cases op with
  | push i => simp [applyScopeOp, List.foldl_append, h]
  | pop => simp [applyScopeOp]

theorem scope_inv_ops (ops : List ScopeOp) :
    ∀ g : GuiScope, g.curScope = g.stack.foldl zgl_id_combine 0 →
      (ops.foldl applyScopeOp g).curScope
        = (ops.foldl applyScopeOp g).stack.foldl zgl_id_combine 0 := by
  induction ops with
  | nil => intro g h; exact h
  | cons op rest ih => intro g h; exact ih _ (scope_inv_step g op h)

/-- C7: after any sequence of push_id/pop_id operations, the effective
identity the reconciler uses for a declared widget id equals
`combine(current_scope, declared)` where `current_scope` is the left-fold
of `combine` over the scope stack with initial value 0 (so with an empty
stack it is `combine(0, declared)`). -/
theorem C7_effective_identity (ops : List ScopeOp) (declared : ℕ) :
    zgl_gui_widget_key (applyScopeOps ops) declared
      = zgl_id_combine ((applyScopeOps ops).stack.foldl zgl_id_combine 0) declared := by
  unfold zgl_gui_widget_key applyScopeOps
  rw [scope_inv_ops ops guiScopeInit rfl]

/-- C8 counterexample: at a = b = 0 the mixing function returns 0, so
`combine(a, b) ≠ a` and `≠ b` do not hold universally (any
rotate-xor-multiply mix sends (0,0) to 0). -/
theorem C8_combine_zero_cex : zgl_id_combine 0 0 = 0 := by decide

/-- C8 (amended): `combine` is deterministic — its result depends only on
its two arguments — and it differs from both inputs on the concrete IDs the
test exercises, `id("panel")` and `id("button")` (though not universally,
see the counterexample). -/
theorem C8_combine_props :
    (∀ a b a2 b2 : ℕ, a = a2 → b = b2 → zgl_id_combine a b = zgl_id_combine a2 b2) ∧
    zgl_id_combine (zgl_id panelBytes) (zgl_id buttonBytes) ≠ zgl_id panelBytes ∧
    zgl_id_combine (zgl_id panelBytes) (zgl_id buttonBytes) ≠ zgl_id buttonBytes := by
  refine ⟨?_, by decide, by decide⟩
  intro a b a2 b2 h1 h2
  rw [h1, h2]

/-- C8 witness: determinism instantiated at the pair (3, 4). -/
theorem C8_combine_props_witness :
    ((3 : ℕ) = 3 ∧ (4 : ℕ) = 4) ∧ zgl_id_combine 3 4 = zgl_id_combine 3 4 :=
  ⟨⟨rfl, rfl⟩, C8_combine_props.1 3 4 3 4 rfl rfl⟩

/- ============================================================ -/
/- Arena lemmas                                                 -/
/- ============================================================ -/

theorem length_setSlot (L : Layout) (i : ℕ) (s : NodeSlot) :
    (setSlot L i s).slots.length = L.slots.length := by
  simp [setSlot]

theorem length_updSlot (L : Layout) (i : ℕ) (f : NodeSlot → NodeSlot) :
    (updSlot L i f).slots.length = L.slots.length := by
  simp [updSlot, length_setSlot]

theorem length_markDirtyUp (fuel : ℕ) : ∀ (L : Layout) (h : Handle),
    (markDirtyUp L fuel h).slots.length = L.slots.length := by
  induction fuel with
  | zero => intro L h; rfl
  | succ fuel ih =>
    intro L h
    simp only [markDirtyUp]
    split
    · rw [ih, length_updSlot]
    · rfl

theorem length_add (L : Layout) (p : Handle) (st : Style) :
    (zgl_layout_add L p st).1.slots.length = L.slots.length := by
  simp only [zgl_layout_add]
  cases findFree L with
  | none => rfl
  | some i =>
    simp only
    split
    · rw [length_markDirtyUp, length_setSlot]
    · split
      · rw [length_markDirtyUp, length_updSlot, length_setSlot]
      · rfl

theorem length_remove (L : Layout) (n : Handle) :
    (zgl_layout_remove L n).slots.length = L.slots.length := by
  simp only [zgl_layout_remove]
  split
  · split
    · simp
    · rw [length_markDirtyUp]; simp
  · rfl

theorem length_set_style (L : Layout) (n : Handle) (st : Style) :
    (zgl_layout_set_style L n st).slots.length = L.slots.length := by
  simp only [zgl_layout_set_style]
  split
  · rw [length_markDirtyUp, length_updSlot]
  · rfl

theorem length_reparent (L : Layout) (n p : Handle) :
    (zgl_layout_reparent L n p).slots.length = L.slots.length := by
  simp only [zgl_layout_reparent]
  split
  · rfl
  · split
    · rfl
    · split
      · rfl
      · simp [apply_ite (fun L : Layout => L.slots.length), length_markDirtyUp,
          length_updSlot]

theorem findFree_eq_none_of_full (L : Layout)
    (h : zgl_layout_node_count L = L.slots.length) : findFree L = none := by
  have hsub : List.Sublist
      ((List.range L.slots.length).filter (fun i => (slotOf L i).inUse))
      (List.range L.slots.length) := List.filter_sublist (List.range L.slots.length)
  have heq := hsub.eq_of_length (by
    rw [show ((List.range L.slots.length).filter (fun i => (slotOf L i).inUse)).length
        = zgl_layout_node_count L from rfl, h, List.length_range])
  rw [findFree, List.find?_eq_none]
  intro i hi
  have : i ∈ (List.range L.slots.length).filter (fun i => (slotOf L i).inUse) := by
    rw [heq]; exact hi
  have := (List.mem_filter.mp this).2
  simp only [Bool.not_eq_true']
  simpa using this

/-- C4: adding into a full arena (node_count = capacity, i.e. the free list
is empty) returns the sentinel handle, sets the last error to
CAPACITY_EXCEEDED and leaves the slot array (hence node count and tree)
unchanged; and no operation ever changes the capacity fixed at
construction. -/
theorem C4_capacity_exceeded (L : Layout) (p n q : Handle) (st st2 : Style) :
    (zgl_layout_node_count L = L.slots.length →
      (zgl_layout_add L p st).2 = SENTINEL ∧
      (zgl_layout_add L p st).1.lastError = Err.capacityExceeded ∧
      (zgl_layout_add L p st).1.slots = L.slots) ∧
    ((zgl_layout_add L p st).1.slots.length = L.slots.length ∧
     (zgl_layout_remove L n).slots.length = L.slots.length ∧
     (zgl_layout_set_style L n st2).slots.length = L.slots.length ∧
     (zgl_layout_reparent L n q).slots.length = L.slots.length) := by
  constructor
  · intro hfull
    rw [zgl_layout_add, findFree_eq_none_of_full L hfull]
    exact ⟨rfl, rfl, rfl⟩
  · exact ⟨length_add L p st, length_remove L n, length_set_style L n st2,
      length_reparent L n q⟩

/-- C4 witness: a full one-slot engine rejects a further add with
CAPACITY_EXCEEDED and an untouched tree. -/
theorem C4_capacity_exceeded_witness :
    zgl_layout_node_count sampleFull = sampleFull.slots.length ∧
    (zgl_layout_add sampleFull 0 ZGL_STYLE_DEFAULT).2 = SENTINEL ∧
    (zgl_layout_add sampleFull 0 ZGL_STYLE_DEFAULT).1.lastError = Err.capacityExceeded ∧
    (zgl_layout_add sampleFull 0 ZGL_STYLE_DEFAULT).1.slots = sampleFull.slots :=
  ⟨by decide, (C4_capacity_exceeded sampleFull 0 0 0 ZGL_STYLE_DEFAULT ZGL_STYLE_DEFAULT).1
    (by decide)⟩

theorem slotOf_out_of_range (L : Layout) (p : Handle) (h : L.slots.length ≤ p) :
    slotOf L p = blankSlot := by
  simp [slotOf, List.getD, List.getElem?_eq_none h]

theorem reachesWithin_sent (L : Layout) (n : Handle) (hn : n ≠ SENTINEL) :
    ∀ f, reachesWithin L f SENTINEL n = false := by
  intro f
  induction f with
  | zero => simp [reachesWithin, Ne.symm hn]
  | succ f ih => simp [reachesWithin, Ne.symm hn]

theorem isValid_lt (L : Layout) (n : Handle) (h : isValid L n = true) :
    n < L.slots.length ∧ (slotOf L n).inUse = true := by
  simpa [isValid] using h

/-- C5: for a live node `n` and any handle `p` in the subtree rooted at `n`
(including `n` itself), `reparent(n, p)` leaves every slot — all parent,
child-chain and sibling links — unchanged and sets the last error to
CYCLE_DETECTED. -/
theorem C5_reparent_cycle_detected (L : Layout) (n p : Handle)
    (hwf : WF L) (hn : isValid L n = true) (hsub : InSubtree L n p) :
    (zgl_layout_reparent L n p).slots = L.slots ∧
    (zgl_layout_reparent L n p).lastError = Err.cycleDetected := by
  obtain ⟨hlenS, hpar, hch, hnd, hfree, hrank⟩ := hwf
  obtain ⟨hnlt, hnuse⟩ := isValid_lt L n hn
  have hnS : n ≠ SENTINEL := Nat.ne_of_lt (lt_of_lt_of_le hnlt hlenS)
  have hpos : 0 < L.slots.length := Nat.lt_of_le_of_lt (Nat.zero_le n) hnlt
  obtain ⟨len2, hlen2⟩ : ∃ k, L.slots.length = k + 1 :=
    ⟨L.slots.length - 1, (Nat.succ_pred_eq_of_pos hpos).symm⟩
  -- p cannot be the sentinel: the walk from the sentinel never meets n
  have hpS : p ≠ SENTINEL := by
    intro hp
    rw [hp] at hsub
    rw [InSubtree, reachesWithin_sent L n hnS] at hsub
    exact Bool.false_ne_true hsub
  -- p must be live: a blank slot steps straight to the sentinel
  have hpv : isValid L p = true := by
    by_contra hbad
    have hblank : slotOf L p = blankSlot := by
      by_cases hplt : p < L.slots.length
      · refine hfree p hplt ?_
        simp only [isValid, Bool.and_eq_true, decide_eq_true_eq] at hbad
        rcases Bool.eq_false_or_eq_true (slotOf L p).inUse with h | h
        · exact absurd ⟨hplt, h⟩ hbad
        · exact h
      · exact slotOf_out_of_range L p (Nat.le_of_not_lt hplt)
    have hpn : p ≠ n := by
      intro he
      rw [he] at hblank
      rw [hblank] at hnuse
      simp [blankSlot] at hnuse
    rw [InSubtree, hlen2] at hsub
    simp only [reachesWithin, Bool.or_eq_true, decide_eq_true_eq, Bool.and_eq_true,
      Bool.not_eq_true', decide_eq_false_iff_not] at hsub
    rcases hsub with h | ⟨-, h⟩
    · exact hpn h
    · rw [show parentStep L p = SENTINEL by
        simp [parentStep, hblank, blankSlot]] at h
      rw [reachesWithin_sent L n hnS] at h
      exact Bool.false_ne_true h
  -- all three branch conditions are now settled
  have hc1 : ¬ ((!isValid L n) = true) := by simp [hn]
  have hc2 : ¬ ((!decide (p = SENTINEL) && !isValid L p) = true) := by simp [hpv]
  rw [zgl_layout_reparent, if_neg hc1, if_neg hc2,
    if_pos (show reachesWithin L L.slots.length p n = true from hsub)]
  exact ⟨rfl, rfl⟩

/-- C5 witness: reparenting the root of a two-node engine under its own
child is rejected with CYCLE_DETECTED and an untouched tree. -/
theorem C5_reparent_cycle_detected_witness :
    (WF sampleTwo ∧ isValid sampleTwo 0 = true ∧ InSubtree sampleTwo 0 1) ∧
    (zgl_layout_reparent sampleTwo 0 1).slots = sampleTwo.slots ∧
    (zgl_layout_reparent sampleTwo 0 1).lastError = Err.cycleDetected :=
  ⟨⟨⟨by decide, by decide, by decide, by decide, by decide, ⟨fun h => h, by decide⟩⟩,
    by decide, by decide⟩,
   C5_reparent_cycle_detected sampleTwo 0 1
     ⟨by decide, by decide, by decide, by decide, by decide, ⟨fun h => h, by decide⟩⟩
     (by decide) (by decide)⟩

theorem parIter_sent (L : Layout) : ∀ k, parIter L k SENTINEL = SENTINEL := by
  intro k
  induction k with
  | zero => rfl
  | succ k ih => simp [parIter, parentStep, ih]

theorem parIter_succ (L : Layout) (k : ℕ) (a : Handle) :
    parIter L (k + 1) a = parIter L k (parentStep L a) := rfl

theorem reachesWithin_iff (L : Layout) :
    ∀ (f : ℕ) (a t : Handle), reachesWithin L f a t = true ↔ ∃ k ≤ f, parIter L k a = t := by
  intro f
  induction f with
  | zero =>
    intro a t
    simp only [reachesWithin, decide_eq_true_eq]
    constructor
    · intro h; exact ⟨0, le_refl 0, h⟩
    · rintro ⟨k, hk, h⟩
      have : k = 0 := Nat.le_zero.mp hk
      subst this; exact h
  | succ f ih =>
    intro a t
    simp only [reachesWithin, Bool.or_eq_true, decide_eq_true_eq, Bool.and_eq_true,
      Bool.not_eq_true', decide_eq_false_iff_not]
    constructor
    · rintro (h | ⟨hne, h⟩)
      · exact ⟨0, Nat.zero_le _, h⟩
      · rcases (ih (parentStep L a) t).mp h with ⟨k, hk, hit⟩
        exact ⟨k + 1, by omega, hit⟩
    · rintro ⟨k, hk, hit⟩
      cases k with
      | zero => exact Or.inl hit
      | succ k =>
        by_cases ha : a = SENTINEL
        · subst ha
          rw [parIter_succ, show parentStep L SENTINEL = SENTINEL by simp [parentStep],
            parIter_sent] at hit
          exact Or.inl hit
        · exact Or.inr ⟨ha, (ih (parentStep L a) t).mpr ⟨k, by omega, hit⟩⟩

theorem reachesWithin_self (L : Layout) (f : ℕ) (a : Handle) :
    reachesWithin L f a a = true := by
  cases f with
  | zero => simp [reachesWithin]
  | succ f => simp [reachesWithin]

theorem nodeCount_eq_card (L : Layout) :
    zgl_layout_node_count L
      = ((Finset.range L.slots.length).filter (fun i => (slotOf L i).inUse)).card := by
  rw [zgl_layout_node_count]
  rw [show ((Finset.range L.slots.length).filter (fun i => (slotOf L i).inUse)).card
      = ((List.range L.slots.length).filter
          (fun i => decide ((slotOf L i).inUse = true))).length from rfl]
  congr 1
  apply List.filter_congr
  intro i _
  simp

theorem valid_ne_sent (L : Layout) (hlenS : L.slots.length ≤ SENTINEL) (a : Handle)
    (ha : ValidP L a) : a ≠ SENTINEL :=
  Nat.ne_of_lt (lt_of_lt_of_le ha.1 hlenS)

theorem parentStep_valid (L : Layout) (hlenS : L.slots.length ≤ SENTINEL) (a : Handle)
    (ha : ValidP L a) : parentStep L a = (slotOf L a).parent := by
  simp [parentStep, valid_ne_sent L hlenS a ha]

theorem sent_not_valid (L : Layout) (hlenS : L.slots.length ≤ SENTINEL) :
    ¬ ValidP L SENTINEL := by
  rintro ⟨h1, -⟩
  exact absurd hlenS (not_le.mpr h1)

theorem path_valid (L : Layout) (hlenS : L.slots.length ≤ SENTINEL) (hpar : ParentOk L) :
    ∀ (k : ℕ) (a t : Handle), ValidP L a → parIter L k a = t → ValidP L t →
      ∀ m, m ≤ k → ValidP L (parIter L m a) := by
  intro k
  induction k with
  | zero =>
    intro a t ha hit ht m hm
    have : m = 0 := Nat.le_zero.mp hm
    subst this
    exact ha
  | succ k ih =>
    intro a t ha hit ht m hm
    rcases hpar a ha.1 ha.2 with hps | ⟨hpv, -⟩
    · exfalso
      rw [parIter_succ, parentStep_valid L hlenS a ha, hps, parIter_sent] at hit
      exact sent_not_valid L hlenS (hit ▸ ht)
    · cases m with
      | zero => exact ha
      | succ m =>
        rw [parIter_succ, parentStep_valid L hlenS a ha] at hit ⊢
        exact ih (slotOf L a).parent t hpv hit ht m (by omega)

theorem rank_step (L : Layout) (hlenS : L.slots.length ≤ SENTINEL) (d : ℕ → ℕ)
    (hd : ∀ h, h < L.slots.length → (slotOf L h).inUse = true →
      (slotOf L h).parent ≠ SENTINEL → d (slotOf L h).parent < d h)
    (x : Handle) (hx : ValidP L x) (hxp : ValidP L (parentStep L x)) :
    d (parentStep L x) < d x := by
  rw [parentStep_valid L hlenS x hx] at hxp ⊢
  exact hd x hx.1 hx.2 (valid_ne_sent L hlenS _ hxp)

theorem parIter_succ_right (L : Layout) : ∀ (k : ℕ) (a : Handle),
    parIter L (k + 1) a = parentStep L (parIter L k a) := by
  intro k
  induction k with
  | zero => intro a; rfl
  | succ k ih => intro a; rw [parIter_succ, ih, parIter_succ]

theorem rank_decreasing (L : Layout) (hlenS : L.slots.length ≤ SENTINEL) (d : ℕ → ℕ)
    (hd : ∀ h, h < L.slots.length → (slotOf L h).inUse = true →
      (slotOf L h).parent ≠ SENTINEL → d (slotOf L h).parent < d h)
    (k : ℕ) (a : Handle) (hvalid : ∀ m, m ≤ k → ValidP L (parIter L m a)) :
    ∀ m2 m1, m1 < m2 → m2 ≤ k → d (parIter L m2 a) < d (parIter L m1 a) := by
  intro m2
  induction m2 with
  | zero => intro m1 h1 _; omega
  | succ m2 ih =>
    intro m1 h1 h2
    have hstep : d (parIter L (m2 + 1) a) < d (parIter L m2 a) := by
      rw [parIter_succ_right]
      refine rank_step L hlenS d hd _ (hvalid m2 (by omega)) ?_
      rw [← parIter_succ_right]
      exact hvalid (m2 + 1) h2
    rcases Nat.lt_or_ge m1 m2 with h | h
    · exact lt_trans hstep (ih m1 h (by omega))
    · have : m1 = m2 := by omega
      subst this
      exact hstep

theorem valid_mem_filter (L : Layout) (a : Handle) (ha : ValidP L a) :
    a ∈ (Finset.range L.slots.length).filter (fun i => (slotOf L i).inUse) := by
  simp only [Finset.mem_filter, Finset.mem_range]
  exact ⟨ha.1, ha.2⟩

theorem path_card_le (L : Layout) (hlenS : L.slots.length ≤ SENTINEL) (d : ℕ → ℕ)
    (hd : ∀ h, h < L.slots.length → (slotOf L h).inUse = true →
      (slotOf L h).parent ≠ SENTINEL → d (slotOf L h).parent < d h)
    (k : ℕ) (a : Handle) (hvalid : ∀ m, m ≤ k → ValidP L (parIter L m a)) :
    k + 1 ≤ zgl_layout_node_count L := by
  rw [nodeCount_eq_card]
  have hmaps : ∀ m : Fin (k + 1), parIter L (m : ℕ) a
      ∈ (Finset.range L.slots.length).filter (fun i => (slotOf L i).inUse) :=
    fun m => valid_mem_filter L _ (hvalid m (by omega))
  have hinj : Set.InjOn (fun m : Fin (k + 1) => parIter L (m : ℕ) a)
      (Finset.univ : Finset (Fin (k + 1))) := by
    intro x _ y _ hxy
    by_contra hne
    simp only at hxy
    rcases Nat.lt_or_ge (x : ℕ) (y : ℕ) with h | h
    · have := rank_decreasing L hlenS d hd k a hvalid y x h (by omega)
      rw [hxy] at this
      omega
    · have hyx : (y : ℕ) < (x : ℕ) := by
        rcases Nat.lt_or_ge (y : ℕ) (x : ℕ) with h2 | h2
        · exact h2
        · exact absurd (Fin.ext (by omega)) hne
      have := rank_decreasing L hlenS d hd k a hvalid x y hyx (by omega)
      rw [hxy] at this
      omega
  have hmaps2 : ∀ m ∈ (Finset.univ : Finset (Fin (k + 1))), parIter L (m : ℕ) a
      ∈ (Finset.range L.slots.length).filter (fun i => (slotOf L i).inUse) :=
    fun m _ => hmaps m
  have hcard := Finset.card_le_card_of_injOn
    (fun m : Fin (k + 1) => parIter L (m : ℕ) a) hmaps2 hinj
  simpa using hcard

theorem nodeCount_le_len (L : Layout) : zgl_layout_node_count L ≤ L.slots.length := by
  rw [nodeCount_eq_card]
  calc ((Finset.range L.slots.length).filter (fun i => (slotOf L i).inUse)).card
      ≤ (Finset.range L.slots.length).card := Finset.card_filter_le _ _
    _ = L.slots.length := Finset.card_range _

theorem exists_walk_sent (L : Layout) (hlenS : L.slots.length ≤ SENTINEL)
    (hpar : ParentOk L) (d : ℕ → ℕ)
    (hd : ∀ h, h < L.slots.length → (slotOf L h).inUse = true →
      (slotOf L h).parent ≠ SENTINEL → d (slotOf L h).parent < d h) :
    ∀ (N : ℕ) (a : Handle), ValidP L a → d a < N →
      ∃ k, parIter L k a = SENTINEL ∧ (∀ m, m < k → ValidP L (parIter L m a)) := by
  intro N
  induction N with
  | zero => intro a _ h; omega
  | succ N ih =>
    intro a ha hda
    rcases hpar a ha.1 ha.2 with hps | ⟨hpv, -⟩
    · refine ⟨1, ?_, ?_⟩
      · rw [parIter_succ, parentStep_valid L hlenS a ha, hps]
        rfl
      · intro m hm
        have : m = 0 := by omega
        subst this
        exact ha
    · have hdp : d (slotOf L a).parent < N := by
        have := hd a ha.1 ha.2 (valid_ne_sent L hlenS _ hpv)
        omega
      rcases ih (slotOf L a).parent hpv hdp with ⟨k, hk, hkv⟩
      refine ⟨k + 1, ?_, ?_⟩
      · rw [parIter_succ, parentStep_valid L hlenS a ha]
        exact hk
      · intro m hm
        cases m with
        | zero => exact ha
        | succ m =>
          rw [parIter_succ, parentStep_valid L hlenS a ha]
          exact hkv m (by omega)

theorem walk_to_sent (L : Layout) (hwf : WF L) (a : Handle) (ha : ValidP L a) :
    ∃ k, k ≤ zgl_layout_node_count L ∧ parIter L k a = SENTINEL := by
  obtain ⟨hlenS, hpar, -, -, -, ⟨d, hd⟩⟩ := hwf
  rcases exists_walk_sent L hlenS hpar d hd (d a + 1) a ha (by omega) with ⟨k, hk, hkv⟩
  cases k with
  | zero =>
    exfalso
    rw [show parIter L 0 a = a from rfl] at hk
    exact sent_not_valid L hlenS (hk ▸ ha)
  | succ k =>
    refine ⟨k + 1, ?_, hk⟩
    exact path_card_le L hlenS d hd k a (fun m hm => hkv m (by omega))

theorem reaches_bound (L : Layout) (hwf : WF L) (a n : Handle)
    (ha : ValidP L a) (hn : ValidP L n) (k : ℕ) (hit : parIter L k a = n) :
    k + 1 ≤ zgl_layout_node_count L := by
  obtain ⟨hlenS, hpar, -, -, -, ⟨d, hd⟩⟩ := hwf
  exact path_card_le L hlenS d hd k a (path_valid L hlenS hpar k a n ha hit hn)

theorem reachesWithin_len_iff (L : Layout) (hwf : WF L) (a n : Handle)
    (ha : ValidP L a) (hn : ValidP L n) :
    reachesWithin L L.slots.length a n = true ↔ ∃ k, parIter L k a = n := by
  rw [reachesWithin_iff]
  constructor
  · rintro ⟨k, -, hk⟩
    exact ⟨k, hk⟩
  · rintro ⟨k, hk⟩
    have h1 := reaches_bound L hwf a n ha hn k hk
    have h2 := nodeCount_le_len L
    exact ⟨k, by omega, hk⟩

/-- The spec's forest invariant (§8) holds in every well-formed state. -/
theorem WF_implies_ForestInv (L : Layout) (hwf : WF L) : ForestInv L := by
  intro h hlt huse
  obtain ⟨hlenS, hpar, hch, hnd, hfree, hrank⟩ := hwf
  refine ⟨?_, ?_, ?_⟩
  · rcases hpar h hlt huse with hs | ⟨hv, -⟩
    · exact Or.inl hs
    · exact Or.inr hv
  · intro hne
    rcases hpar h hlt huse with hs | ⟨-, hc⟩
    · exact absurd hs hne
    · exact hc
  · rcases walk_to_sent L ⟨hlenS, hpar, hch, hnd, hfree, hrank⟩ h ⟨hlt, huse⟩ with ⟨k, hk, hit⟩
    rw [reachesWithin_iff]
    exact ⟨k, hk, hit⟩

theorem slotOf_setSlot_self (L : Layout) (i : ℕ) (s : NodeSlot) (h : i < L.slots.length) :
    slotOf (setSlot L i s) i = s := by
  simp [slotOf, setSlot, List.getD, List.getElem?_set_self', h]

theorem slotOf_setSlot_ne (L : Layout) (i : ℕ) (s : NodeSlot) (j : ℕ) (h : j ≠ i) :
    slotOf (setSlot L i s) j = slotOf L j := by
  simp [slotOf, setSlot, List.getD, List.getElem?_set_ne (Ne.symm h)]

theorem slotOf_updSlot_self (L : Layout) (i : ℕ) (f : NodeSlot → NodeSlot)
    (h : i < L.slots.length) : slotOf (updSlot L i f) i = f (slotOf L i) :=
  slotOf_setSlot_self L i _ h

theorem slotOf_updSlot_ne (L : Layout) (i : ℕ) (f : NodeSlot → NodeSlot) (j : ℕ)
    (h : j ≠ i) : slotOf (updSlot L i f) j = slotOf L j :=
  slotOf_setSlot_ne L i _ j h

theorem markDirtyUp_slot (fuel : ℕ) : ∀ (L : Layout) (h j : Handle),
    ((slotOf (markDirtyUp L fuel h) j).parent = (slotOf L j).parent ∧
     (slotOf (markDirtyUp L fuel h) j).children = (slotOf L j).children ∧
     (slotOf (markDirtyUp L fuel h) j).inUse = (slotOf L j).inUse) ∧
    ((slotOf L j).inUse = false → slotOf (markDirtyUp L fuel h) j = slotOf L j) := by
  induction fuel with
  | zero => intro L h j; exact ⟨⟨rfl, rfl, rfl⟩, fun _ => rfl⟩
  | succ fuel ih =>
    intro L h j
    simp only [markDirtyUp]
    split
    · rename_i hv
      have hlt : h < L.slots.length := (isValid_lt L h hv).1
      have huse : (slotOf L h).inUse = true := (isValid_lt L h hv).2
      have hrec := ih (updSlot L h (fun s => { s with dirty := true })) (slotOf L h).parent j
      by_cases hj : j = h
      · subst hj
        rw [slotOf_updSlot_self L j _ hlt] at hrec
        exact ⟨hrec.1, fun hfalse => absurd huse (by simp [hfalse])⟩
      · rw [slotOf_updSlot_ne L h _ j hj] at hrec
        exact hrec
    · exact ⟨⟨rfl, rfl, rfl⟩, fun _ => rfl⟩

theorem WF_transfer (L L' : Layout)
    (hlen : L'.slots.length = L.slots.length)
    (hf : ∀ j, (slotOf L' j).parent = (slotOf L j).parent ∧
               (slotOf L' j).children = (slotOf L j).children ∧
               (slotOf L' j).inUse = (slotOf L j).inUse)
    (hfree2 : ∀ j, (slotOf L j).inUse = false → slotOf L' j = slotOf L j)
    (hwf : WF L) : WF L' := by
  obtain ⟨hlenS, hpar, hch, hnd, hfree, ⟨d, hd⟩⟩ := hwf
  have hvalid : ∀ x, ValidP L' x ↔ ValidP L x := by
    intro x
    unfold ValidP
    rw [hlen, (hf x).2.2]
  refine ⟨by omega, ?_, ?_, ?_, ?_, ⟨d, ?_⟩⟩
  · intro h hlt huse
    rw [hlen] at hlt
    rw [(hf h).2.2] at huse
    rw [(hf h).1]
    rcases hpar h hlt huse with hs | ⟨hv, hc⟩
    · exact Or.inl hs
    · exact Or.inr ⟨(hvalid _).mpr hv, by rw [(hf _).2.1]; exact hc⟩
  · intro h hlt huse c hc
    rw [hlen] at hlt
    rw [(hf h).2.2] at huse
    rw [(hf h).2.1] at hc
    rcases hch h hlt huse c hc with ⟨hv, hp⟩
    exact ⟨(hvalid _).mpr hv, by rw [(hf _).1]; exact hp⟩
  · intro h hlt huse
    rw [hlen] at hlt
    rw [(hf h).2.2] at huse
    rw [(hf h).2.1]
    exact hnd h hlt huse
  · intro h hlt huse
    rw [hlen] at hlt
    have huse2 : (slotOf L h).inUse = false := by rw [← (hf h).2.2]; exact huse
    rw [hfree2 h huse2]
    exact hfree h hlt huse2
  · intro h hlt huse hne
    rw [hlen] at hlt
    rw [(hf h).2.2] at huse
    rw [(hf h).1] at hne ⊢
    exact hd h hlt huse hne

theorem WF_markDirtyUp (L : Layout) (fuel : ℕ) (h : Handle) (hwf : WF L) :
    WF (markDirtyUp L fuel h) :=
  WF_transfer L (markDirtyUp L fuel h) (length_markDirtyUp fuel L h)
    (fun j => (markDirtyUp_slot fuel L h j).1)
    (fun j hj => (markDirtyUp_slot fuel L h j).2 hj) hwf

theorem WF_set_style (L : Layout) (n : Handle) (st : Style) (hwf : WF L) :
    WF (zgl_layout_set_style L n st) := by
  rw [zgl_layout_set_style]
  split
  · rename_i hv
    have hlt := (isValid_lt L n hv).1
    have huse := (isValid_lt L n hv).2
    refine WF_markDirtyUp _ _ _ (WF_transfer L _ (length_updSlot L n _) ?_ ?_ hwf)
    · intro j
      by_cases hj : j = n
      · subst hj
        rw [slotOf_updSlot_self _ _ _ hlt]
        exact ⟨rfl, rfl, rfl⟩
      · rw [slotOf_updSlot_ne _ _ _ _ hj]
        exact ⟨rfl, rfl, rfl⟩
    · intro j hjf
      have hj : j ≠ n := by
        intro he
        rw [he, huse] at hjf
        cases hjf
      rw [slotOf_updSlot_ne _ _ _ _ hj]
  · exact hwf

theorem findFree_some (L : Layout) (i : ℕ) (h : findFree L = some i) :
    i < L.slots.length ∧ (slotOf L i).inUse = false := by
  constructor
  · exact List.mem_range.mp (List.mem_of_find?_eq_some h)
  · have := List.find?_some h
    simpa using this

theorem nodup_append_singleton {l : List ℕ} {a : ℕ} (hn : l.Nodup) (ha : a ∉ l) :
    (l ++ [a]).Nodup := by
  simp [List.nodup_append, hn, ha]

theorem WF_add (L : Layout) (p : Handle) (st : Style) (hwf : WF L) :
    WF (zgl_layout_add L p st).1 := by
  rw [zgl_layout_add]
  cases hff : findFree L with
  | none => exact hwf
  | some i =>
    obtain ⟨hilt, hifree⟩ := findFree_some L i hff
    obtain ⟨hlenS, hpar, hch, hnd, hfree, ⟨d, hd⟩⟩ := hwf
    have hne_used : ∀ x, (slotOf L x).inUse = true → x ≠ i := by
      intro x hx he
      rw [he, hifree] at hx
      cases hx
    have hparent_ne_self : ∀ h, h < L.slots.length → (slotOf L h).inUse = true →
        (slotOf L h).parent ≠ SENTINEL → (slotOf L h).parent ≠ h := by
      intro h hlt huse hne he
      have := hd h hlt huse hne
      rw [he] at this
      omega
    simp only
    split
    · -- root add: p = SENTINEL
      refine WF_markDirtyUp _ _ _ ?_
      have hslot : ∀ j, slotOf (setSlot L i (newSlot SENTINEL st)) j
          = if j = i then newSlot SENTINEL st else slotOf L j := by
        intro j
        by_cases hj : j = i
        · subst hj
          rw [slotOf_setSlot_self _ _ _ hilt, if_pos rfl]
        · rw [slotOf_setSlot_ne _ _ _ _ hj, if_neg hj]
      have hlen1 : (setSlot L i (newSlot SENTINEL st)).slots.length = L.slots.length :=
        length_setSlot L i _
      have hvalid1 : ∀ x, ValidP L x → ValidP (setSlot L i (newSlot SENTINEL st)) x := by
        intro x hx
        refine ⟨by rw [hlen1]; exact hx.1, ?_⟩
        rw [hslot, if_neg (hne_used x hx.2)]
        exact hx.2
      refine ⟨by rw [hlen1]; exact hlenS, ?_, ?_, ?_, ?_, ?_⟩
      · intro h hlt huse
        rw [hlen1] at hlt
        rw [hslot h] at huse ⊢
        by_cases hj : h = i
        · rw [if_pos hj]
          exact Or.inl rfl
        · rw [if_neg hj] at huse ⊢
          rcases hpar h hlt huse with hs | ⟨hv, hc⟩
          · exact Or.inl hs
          · refine Or.inr ⟨hvalid1 _ hv, ?_⟩
            rw [hslot, if_neg (hne_used _ hv.2)]
            exact hc
      · intro h hlt huse c hc
        rw [hlen1] at hlt
        rw [hslot h] at huse hc
        by_cases hj : h = i
        · rw [if_pos hj] at hc
          simp [newSlot] at hc
        · rw [if_neg hj] at huse hc
          rcases hch h hlt huse c hc with ⟨hv, hp⟩
          refine ⟨hvalid1 _ hv, ?_⟩
          rw [hslot, if_neg (hne_used _ hv.2)]
          exact hp
      · intro h hlt huse
        rw [hlen1] at hlt
        rw [hslot h] at huse ⊢
        by_cases hj : h = i
        · rw [if_pos hj]
          simp [newSlot]
        · rw [if_neg hj] at huse ⊢
          exact hnd h hlt huse
      · intro h hlt huse
        rw [hlen1] at hlt
        rw [hslot h] at huse ⊢
        by_cases hj : h = i
        · rw [if_pos hj] at huse
          simp [newSlot] at huse
        · rw [if_neg hj] at huse ⊢
          exact hfree h hlt huse
      · refine ⟨fun x => if x = i then 0 else d x, ?_⟩
        intro h hlt huse hne
        rw [hlen1] at hlt
        rw [hslot h] at huse hne ⊢
        by_cases hj : h = i
        · rw [if_pos hj] at hne
          simp [newSlot] at hne
        · rw [if_neg hj] at huse hne ⊢
          have hpne : (slotOf L h).parent ≠ i := by
            rcases hpar h hlt huse with hs | ⟨hv, -⟩
            · exact absurd hs hne
            · exact hne_used _ hv.2
          simp only [if_neg hpne, if_neg hj]
          exact hd h hlt huse hne
    · split
      · -- child add under live parent p
        rename_i hpS hpv
        obtain ⟨hplt, hpuse⟩ := isValid_lt L p hpv
        have hpi : p ≠ i := hne_used p hpuse
        refine WF_markDirtyUp _ _ _ ?_
        have hslot : ∀ j, slotOf (updSlot (setSlot L i (newSlot p st)) p
              (fun s => { s with children := s.children ++ [i] })) j
            = if j = p then { slotOf L p with children := (slotOf L p).children ++ [i] }
              else if j = i then newSlot p st else slotOf L j := by
          intro j
          by_cases hjp : j = p
          · subst hjp
            rw [if_pos rfl,
              slotOf_updSlot_self _ _ _ (by rw [length_setSlot]; exact hplt),
              slotOf_setSlot_ne _ _ _ _ hpi]
          · rw [if_neg hjp, slotOf_updSlot_ne _ _ _ _ hjp]
            by_cases hji : j = i
            · subst hji
              rw [slotOf_setSlot_self _ _ _ hilt, if_pos rfl]
            · rw [slotOf_setSlot_ne _ _ _ _ hji, if_neg hji]
        have hlen1 : (updSlot (setSlot L i (newSlot p st)) p
            (fun s => { s with children := s.children ++ [i] })).slots.length
            = L.slots.length := by
          rw [length_updSlot, length_setSlot]
        have hi_notmem : ∀ h, h < L.slots.length → (slotOf L h).inUse = true →
            i ∉ (slotOf L h).children := by
          intro h hlt huse hmem
          exact hne_used i (hch h hlt huse i hmem).1.2 rfl
        have hvalid1 : ∀ x, ValidP L x → ValidP (updSlot (setSlot L i (newSlot p st)) p
            (fun s => { s with children := s.children ++ [i] })) x := by
          intro x hx
          refine ⟨by rw [hlen1]; exact hx.1, ?_⟩
          rw [hslot]
          by_cases hxp : x = p
          · rw [if_pos hxp]
            exact hpuse
          · rw [if_neg hxp, if_neg (hne_used x hx.2)]
            exact hx.2
        have hvalid_i : ValidP (updSlot (setSlot L i (newSlot p st)) p
            (fun s => { s with children := s.children ++ [i] })) i := by
          refine ⟨by rw [hlen1]; exact hilt, ?_⟩
          rw [hslot, if_neg (Ne.symm hpi), if_pos rfl]
          rfl
        refine ⟨by rw [hlen1]; exact hlenS, ?_, ?_, ?_, ?_, ?_⟩
        · -- ParentOk
          intro h hlt huse
          rw [hlen1] at hlt
          rw [hslot h] at huse ⊢
          by_cases hjp : h = p
          · rw [if_pos hjp] at huse ⊢
            simp only at huse ⊢
            subst hjp
            rcases hpar h hlt hpuse with hs | ⟨hv, hc⟩
            · exact Or.inl hs
            · refine Or.inr ⟨hvalid1 _ hv, ?_⟩
              have hpns : (slotOf L h).parent ≠ h :=
                hparent_ne_self h hlt hpuse
                  (valid_ne_sent L hlenS ((slotOf L h).parent) hv)
              rw [hslot, if_neg hpns, if_neg (hne_used _ hv.2)]
              exact hc
          · rw [if_neg hjp] at huse ⊢
            by_cases hji : h = i
            · subst hji
              rw [if_pos rfl] at huse ⊢
              refine Or.inr ⟨hvalid1 _ ⟨hplt, hpuse⟩, ?_⟩
              rw [show (newSlot p st).parent = p from rfl, hslot, if_pos rfl]
              simp only
              rw [List.count_append, List.count_eq_zero.mpr (hi_notmem p hplt hpuse)]
              simp
            · rw [if_neg hji] at huse ⊢
              rcases hpar h hlt huse with hs | ⟨hv, hc⟩
              · exact Or.inl hs
              · refine Or.inr ⟨hvalid1 _ hv, ?_⟩
                rw [hslot]
                by_cases hpp : (slotOf L h).parent = p
                · rw [if_pos hpp]
                  simp only
                  rw [hpp] at hc
                  rw [List.count_append, hc]
                  have h0 : List.count h [i] = 0 := by
                    simp [hji]
                  omega
                · rw [if_neg hpp, if_neg (hne_used _ hv.2)]
                  exact hc
        · -- ChildrenOk
          intro h hlt huse c hc
          rw [hlen1] at hlt
          rw [hslot h] at huse hc
          by_cases hjp : h = p
          · rw [if_pos hjp] at huse hc
            simp only at hc
            subst hjp
            rcases List.mem_append.mp hc with hcm | hcm
            · rcases hch h hlt hpuse c hcm with ⟨hv, hp⟩
              refine ⟨hvalid1 _ hv, ?_⟩
              have hcp : c ≠ h := by
                intro he
                rw [he] at hp
                have hne2 : (slotOf L h).parent ≠ SENTINEL := by
                  rw [hp]
                  intro hx
                  rw [hx] at hlt
                  exact absurd hlenS (not_le.mpr hlt)
                exact hparent_ne_self h hlt hpuse hne2 hp
              rw [hslot, if_neg hcp, if_neg (hne_used _ hv.2)]
              exact hp
            · have hci : c = i := by simpa using hcm
              subst hci
              refine ⟨hvalid_i, ?_⟩
              rw [hslot, if_neg (Ne.symm hpi), if_pos rfl]
              rfl
          · rw [if_neg hjp] at huse hc
            by_cases hji : h = i
            · rw [if_pos hji] at hc
              simp [newSlot] at hc
            · rw [if_neg hji] at huse hc
              rcases hch h hlt huse c hc with ⟨hv, hp⟩
              refine ⟨hvalid1 _ hv, ?_⟩
              rw [hslot]
              by_cases hcp : c = p
              · rw [if_pos hcp]
                simp only
                rw [← hcp]
                exact hp
              · rw [if_neg hcp, if_neg (hne_used _ hv.2)]
                exact hp
        · -- NodupOk
          intro h hlt huse
          rw [hlen1] at hlt
          rw [hslot h] at huse ⊢
          by_cases hjp : h = p
          · rw [if_pos hjp] at huse ⊢
            simp only
            subst hjp
            exact nodup_append_singleton (hnd h hlt hpuse) (hi_notmem h hlt hpuse)
          · rw [if_neg hjp] at huse ⊢
            by_cases hji : h = i
            · rw [if_pos hji]
              simp [newSlot]
            · rw [if_neg hji] at huse ⊢
              exact hnd h hlt huse
        · -- FreeClean
          intro h hlt huse
          rw [hlen1] at hlt
          rw [hslot h] at huse ⊢
          by_cases hjp : h = p
          · rw [if_pos hjp] at huse
            simp only at huse
            rw [huse] at hpuse
            cases hpuse
          · rw [if_neg hjp] at huse ⊢
            by_cases hji : h = i
            · rw [if_pos hji] at huse
              simp [newSlot] at huse
            · rw [if_neg hji] at huse ⊢
              exact hfree h hlt huse
        · -- Ranked
          refine ⟨fun x => if x = i then d p + 1 else d x, ?_⟩
          intro h hlt huse hne
          rw [hlen1] at hlt
          rw [hslot h] at huse hne ⊢
          by_cases hjp : h = p
          · rw [if_pos hjp] at huse hne ⊢
            simp only at hne ⊢
            subst hjp
            have hv : ValidP L (slotOf L h).parent := by
              rcases hpar h hlt hpuse with hs | ⟨hv, -⟩
              · exact absurd hs hne
              · exact hv
            simp only [if_neg (hne_used _ hv.2), if_neg (hne_used _ hpuse)]
            exact hd h hlt hpuse hne
          · rw [if_neg hjp] at huse hne ⊢
            by_cases hji : h = i
            · rw [if_pos hji] at hne ⊢
              rw [show (newSlot p st).parent = p from rfl] at hne ⊢
              simp only [if_neg hpi, if_pos hji]
              omega
            · rw [if_neg hji] at huse hne ⊢
              have hpne : (slotOf L h).parent ≠ i := by
                rcases hpar h hlt huse with hs | ⟨hv, -⟩
                · exact absurd hs hne
                · exact hne_used _ hv.2
              simp only [if_neg hpne, if_neg hji]
              exact hd h hlt huse hne
      · exact ⟨hlenS, hpar, hch, hnd, hfree, ⟨d, hd⟩⟩

theorem parent_ne_self (L : Layout) (d : ℕ → ℕ)
    (hd : ∀ h, h < L.slots.length → (slotOf L h).inUse = true →
      (slotOf L h).parent ≠ SENTINEL → d (slotOf L h).parent < d h)
    (h : Handle) (hlt : h < L.slots.length) (huse : (slotOf L h).inUse = true)
    (hne : (slotOf L h).parent ≠ SENTINEL) : (slotOf L h).parent ≠ h := by
  intro he
  have := hd h hlt huse hne
  rw [he] at this
  omega

theorem getD_map_range {α : Type} (n : ℕ) (f : ℕ → α) (j : ℕ) (dv : α) :
    ((List.range n).map f).getD j dv = if j < n then f j else dv := by
  by_cases hj : j < n
  · rw [if_pos hj]
    rw [List.getD, List.get?_map, List.get?_range hj]
    rfl
  · rw [if_neg hj]
    have hlen2 : ((List.range n).map f).length ≤ j := by
      simpa using Nat.le_of_not_lt hj
    rw [List.getD, List.get?_eq_none.mpr hlen2]
    rfl

theorem no_cycle (L : Layout) (hwf : WF L) (a : Handle) (ha : ValidP L a)
    (k : ℕ) (hk : 0 < k) (hit : parIter L k a = a) : False := by
  have hlenS := hwf.1
  have hpar := hwf.2.1
  obtain ⟨d, hd⟩ := hwf.2.2.2.2.2
  have hvalid := path_valid L hlenS hpar k a a ha hit ha
  have := rank_decreasing L hlenS d hd k a hvalid k 0 hk (le_refl k)
  rw [hit, show parIter L 0 a = a from rfl] at this
  omega

theorem WF_remove (L : Layout) (n : Handle) (hwf : WF L) :
    WF (zgl_layout_remove L n) := by
  rw [zgl_layout_remove]
  split
  · rename_i hv
    have hlenS := hwf.1
    have hpar := hwf.2.1
    have hch := hwf.2.2.1
    have hnd := hwf.2.2.2.1
    have hfree := hwf.2.2.2.2.1
    obtain ⟨d, hd⟩ := hwf.2.2.2.2.2
    have hn : ValidP L n := ⟨(isValid_lt L n hv).1, (isValid_lt L n hv).2⟩
    -- the freed predicate steps up along surviving parent links
    have hstep_reach : ∀ j, ValidP L j → ValidP L (slotOf L j).parent →
        reachesWithin L L.slots.length (slotOf L j).parent n = true →
        reachesWithin L L.slots.length j n = true := by
      intro j hj hq hr
      rw [reachesWithin_len_iff L hwf _ n hq hn] at hr
      rcases hr with ⟨k, hk⟩
      rw [reachesWithin_len_iff L hwf j n hj hn]
      refine ⟨k + 1, ?_⟩
      rw [parIter_succ, parentStep_valid L hlenS j hj]
      exact hk
    -- a child of a surviving node other than n survives as well
    have hchild_keep : ∀ j c, ValidP L j → reachesWithin L L.slots.length j n = false →
        c ∈ (slotOf L j).children → c ≠ n →
        reachesWithin L L.slots.length c n = false := by
      intro j c hj hjr hcm hcn
      rcases hch j hj.1 hj.2 c hcm with ⟨hcv, hcp⟩
      by_contra hbad
      have hcr : reachesWithin L L.slots.length c n = true := by
        rcases Bool.eq_false_or_eq_true (reachesWithin L L.slots.length c n) with hx | hx
        · exact hx
        · exact absurd hx hbad
      rw [reachesWithin_len_iff L hwf c n hcv hn] at hcr
      rcases hcr with ⟨k, hk⟩
      cases k with
      | zero => exact hcn hk
      | succ k =>
        rw [parIter_succ, parentStep_valid L hlenS c hcv, hcp] at hk
        have : reachesWithin L L.slots.length j n = true := by
          rw [reachesWithin_len_iff L hwf j n hj hn]
          exact ⟨k, hk⟩
        rw [hjr] at this
        cases this
    have hnR : reachesWithin L L.slots.length n n = true := reachesWithin_self L _ n
    set p := (slotOf L n).parent with hp
    set L1 : Layout := { L with slots := (List.range L.slots.length).map (fun i =>
        let s := slotOf L i
        if s.inUse && reachesWithin L L.slots.length i n then blankSlot
        else if i = p then { s with children := s.children.erase n }
        else s) } with hL1def
    have hslot : ∀ j, slotOf L1 j
        = if (slotOf L j).inUse && reachesWithin L L.slots.length j n then blankSlot
          else if j = p then { slotOf L j with children := (slotOf L j).children.erase n }
          else slotOf L j := by
      intro j
      rw [hL1def]
      show ((List.range L.slots.length).map _).getD j blankSlot = _
      rw [getD_map_range]
      by_cases hj : j < L.slots.length
      · rw [if_pos hj]
      · rw [if_neg hj]
        have hb : slotOf L j = blankSlot := slotOf_out_of_range L j (Nat.le_of_not_lt hj)
        rw [hb]
        rw [show (blankSlot.inUse && reachesWithin L L.slots.length j n) = false from rfl]
        simp only [if_neg Bool.false_ne_true]
        split
        · rfl
        · rfl
    have hlen1 : L1.slots.length = L.slots.length := by
      rw [hL1def]
      simp
    -- survivors keep their parent and in-use fields
    have hfields : ∀ j, ((slotOf L j).inUse && reachesWithin L L.slots.length j n) = false →
        (slotOf L1 j).parent = (slotOf L j).parent ∧
        (slotOf L1 j).inUse = (slotOf L j).inUse := by
      intro j hjb
      rw [hslot j, hjb]
      simp only [if_neg Bool.false_ne_true]
      split
      · exact ⟨rfl, rfl⟩
      · exact ⟨rfl, rfl⟩
    have hsurv : ∀ j, ValidP L j → reachesWithin L L.slots.length j n = false →
        ValidP L1 j := by
      intro j hj hjr
      have hb : ((slotOf L j).inUse && reachesWithin L L.slots.length j n) = false := by
        rw [hjr, Bool.and_false]
      refine ⟨by rw [hlen1]; exact hj.1, ?_⟩
      rw [(hfields j hb).2]
      exact hj.2
    -- the parent link of an unfreed in-use node points at an unfreed node
    have hpar_keep : ∀ j, ValidP L j → reachesWithin L L.slots.length j n = false →
        (slotOf L j).parent ≠ SENTINEL →
        ValidP L (slotOf L j).parent ∧
        reachesWithin L L.slots.length (slotOf L j).parent n = false := by
      intro j hj hjr hne
      have hqv : ValidP L (slotOf L j).parent := by
        rcases hpar j hj.1 hj.2 with hs | ⟨hv, -⟩
        · exact absurd hs hne
        · exact hv
      refine ⟨hqv, ?_⟩
      cases hqr : reachesWithin L L.slots.length (slotOf L j).parent n with
      | false => rfl
      | true =>
        have := hstep_reach j hj hqv hqr
        rw [hjr] at this
        cases this
    have hwf1 : WF L1 := by
      refine ⟨by rw [hlen1]; exact hlenS, ?_, ?_, ?_, ?_, ?_⟩
      · -- ParentOk
        intro h hlt huse
        rw [hlen1] at hlt
        cases hb : ((slotOf L h).inUse && reachesWithin L L.slots.length h n) with
        | true =>
          rw [hslot h, hb] at huse
          simp [blankSlot] at huse
        | false =>
          have hmain := hfields h hb
          rw [hmain.2] at huse
          have hhr : reachesWithin L L.slots.length h n = false := by
            rcases Bool.and_eq_false_iff.mp hb with hx | hx
            · rw [hx] at huse; cases huse
            · exact hx
          rw [hmain.1]
          rcases hpar h hlt huse with hs | ⟨hv, hc⟩
          · exact Or.inl hs
          · have hq := hpar_keep h ⟨hlt, huse⟩ hhr (valid_ne_sent L hlenS _ hv)
            refine Or.inr ⟨hsurv _ hv hq.2, ?_⟩
            have hqb : ((slotOf L (slotOf L h).parent).inUse &&
                reachesWithin L L.slots.length (slotOf L h).parent n) = false := by
              rw [hq.2, Bool.and_false]
            rw [hslot _, hqb]
            simp only [if_neg Bool.false_ne_true]
            have hhn : h ≠ n := by
              intro he
              rw [he, hnR, Bool.and_true] at hb
              rw [he] at huse
              rw [huse] at hb
              cases hb
            split
            · simp only
              rw [List.count_erase_of_ne hhn]
              exact hc
            · exact hc
      · -- ChildrenOk
        intro h hlt huse c hcm
        rw [hlen1] at hlt
        cases hb : ((slotOf L h).inUse && reachesWithin L L.slots.length h n) with
        | true =>
          rw [hslot h, hb] at huse
          simp [blankSlot] at huse
        | false =>
          have hmain := hfields h hb
          rw [hmain.2] at huse
          have hhr : reachesWithin L L.slots.length h n = false := by
            rcases Bool.and_eq_false_iff.mp hb with hx | hx
            · rw [hx] at huse; cases huse
            · exact hx
          -- identify the original child list
          have hcm2 : c ∈ (slotOf L h).children ∧ c ≠ n := by
            rw [hslot h, hb] at hcm
            simp only [if_neg Bool.false_ne_true] at hcm
            by_cases hhp : h = p
            · rw [if_pos hhp] at hcm
              simp only at hcm
              exact ⟨List.mem_of_mem_erase hcm,
                ((hnd h hlt huse).mem_erase_iff.mp hcm).1⟩
            · rw [if_neg hhp] at hcm
              refine ⟨hcm, ?_⟩
              intro he
              subst he
              exact hhp ((hch h hlt huse c hcm).2 ▸ hp ▸ rfl)
          rcases hch h hlt huse c hcm2.1 with ⟨hcv, hcp⟩
          have hcr : reachesWithin L L.slots.length c n = false :=
            hchild_keep h c ⟨hlt, huse⟩ hhr hcm2.1 hcm2.2
          have hcb : ((slotOf L c).inUse && reachesWithin L L.slots.length c n) = false := by
            rw [hcr, Bool.and_false]
          exact ⟨hsurv c hcv hcr, by rw [(hfields c hcb).1]; exact hcp⟩
      · -- NodupOk
        intro h hlt huse
        rw [hlen1] at hlt
        cases hb : ((slotOf L h).inUse && reachesWithin L L.slots.length h n) with
        | true =>
          rw [hslot h, hb] at huse
          simp [blankSlot] at huse
        | false =>
          have hmain := hfields h hb
          rw [hmain.2] at huse
          rw [hslot h, hb]
          simp only [if_neg Bool.false_ne_true]
          split
          · simp only
            exact (hnd h hlt huse).erase n
          · exact hnd h hlt huse
      · -- FreeClean
        intro h hlt huse
        rw [hlen1] at hlt
        cases hb : ((slotOf L h).inUse && reachesWithin L L.slots.length h n) with
        | true =>
          rw [hslot h, hb]
          rfl
        | false =>
          have hmain := hfields h hb
          rw [hmain.2] at huse
          have hbl : slotOf L h = blankSlot := hfree h hlt huse
          rw [hslot h, hb]
          simp only [if_neg Bool.false_ne_true]
          split
          · rw [hbl]
            rfl
          · exact hbl
      · -- Ranked
        refine ⟨d, ?_⟩
        intro h hlt huse hne
        rw [hlen1] at hlt
        cases hb : ((slotOf L h).inUse && reachesWithin L L.slots.length h n) with
        | true =>
          rw [hslot h, hb] at huse
          simp [blankSlot] at huse
        | false =>
          have hmain := hfields h hb
          rw [hmain.2] at huse
          rw [hmain.1] at hne ⊢
          exact hd h hlt huse hne
    by_cases hps : p = SENTINEL
    · rw [if_pos hps]
      exact hwf1
    · rw [if_neg hps]
      exact WF_markDirtyUp _ _ _ hwf1
  · exact hwf

theorem WF_reparent (L : Layout) (n p : Handle) (hwf : WF L) :
    WF (zgl_layout_reparent L n p) := by
  rw [zgl_layout_reparent]
  split
  · exact hwf
  · split
    · exact hwf
    · split
      · exact hwf
      · rename_i hc1 hc2 hc3
        classical
        have hv : isValid L n = true := by
          rcases Bool.eq_false_or_eq_true (isValid L n) with hx | hx
          · exact hx
          · exact absurd (by rw [hx]; rfl) hc1
        have hlenS := hwf.1
        have hpar := hwf.2.1
        have hch := hwf.2.2.1
        have hnd := hwf.2.2.2.1
        have hfree := hwf.2.2.2.2.1
        obtain ⟨d, hd⟩ := hwf.2.2.2.2.2
        obtain ⟨hnlt, hnuse⟩ := isValid_lt L n hv
        have hnv : ValidP L n := ⟨hnlt, hnuse⟩
        have hqok : p = SENTINEL ∨ ValidP L p := by
          by_cases hps : p = SENTINEL
          · exact Or.inl hps
          · right
            rcases Bool.eq_false_or_eq_true (isValid L p) with hx | hx
            · exact ⟨(isValid_lt L p hx).1, (isValid_lt L p hx).2⟩
            · exact absurd (by rw [hx]; simp [hps]) hc2
        have hcycle : reachesWithin L L.slots.length p n = false := by
          rcases Bool.eq_false_or_eq_true (reachesWithin L L.slots.length p n) with hx | hx
          · exact absurd hx hc3
          · exact hx
        have hpn : p ≠ n := by
          intro he
          rw [he, reachesWithin_self] at hcycle
          cases hcycle
        have hnoreach : ¬ ∃ k, parIter L k p = n := by
          rcases hqok with hps | hqv
          · rintro ⟨k, hk⟩
            rw [hps, parIter_sent] at hk
            exact valid_ne_sent L hlenS n hnv hk.symm
          · intro hex
            rw [← reachesWithin_len_iff L ⟨hlenS, hpar, hch, hnd, hfree, ⟨d, hd⟩⟩ p n hqv hnv]
              at hex
            rw [hcycle] at hex
            cases hex
        set oldp := (slotOf L n).parent with holdp
        have holdp_ne_n : oldp ≠ n := by
          by_cases hos : oldp = SENTINEL
          · rw [hos]
            intro he
            exact valid_ne_sent L hlenS n hnv he.symm
          · exact parent_ne_self L d hd n hnlt hnuse hos
        have holdp_lt : oldp ≠ SENTINEL → oldp < L.slots.length := by
          intro hos
          rcases hpar n hnlt hnuse with hs | ⟨hvq, -⟩
          · exact absurd hs hos
          · exact hvq.1
        -- the combined surgery, slot by slot
        set LA := (if oldp = SENTINEL then L
          else updSlot L oldp fun s => { s with children := s.children.erase n }) with hLA
        set LB := updSlot LA n fun s => { s with parent := p } with hLB
        set L3 := (if p = SENTINEL then LB
          else updSlot LB p fun s => { s with children := s.children ++ [n] }) with hL3
        have hlenA : LA.slots.length = L.slots.length := by
          rw [hLA]
          by_cases hos : oldp = SENTINEL
          · rw [if_pos hos]
          · rw [if_neg hos, length_updSlot]
        have hA : ∀ j, slotOf LA j
            = if oldp ≠ SENTINEL ∧ j = oldp
              then { slotOf L j with children := (slotOf L j).children.erase n }
              else slotOf L j := by
          intro j
          rw [hLA]
          by_cases hos : oldp = SENTINEL
          · rw [if_pos hos, if_neg (by simp [hos])]
          · rw [if_neg hos]
            by_cases hjo : j = oldp
            · rw [if_pos ⟨hos, hjo⟩, hjo, slotOf_updSlot_self _ _ _ (holdp_lt hos)]
            · rw [if_neg (fun hx => hjo hx.2), slotOf_updSlot_ne _ _ _ _ hjo]
        have hB : ∀ j, slotOf LB j
            = if j = n then { slotOf L n with parent := p }
              else if oldp ≠ SENTINEL ∧ j = oldp
              then { slotOf L j with children := (slotOf L j).children.erase n }
              else slotOf L j := by
          intro j
          rw [hLB]
          by_cases hjn : j = n
          · rw [if_pos hjn, hjn, slotOf_updSlot_self _ _ _ (by rw [hlenA]; exact hnlt),
              hA n, if_neg (fun hx => holdp_ne_n.symm hx.2)]
          · rw [if_neg hjn, slotOf_updSlot_ne _ _ _ _ hjn, hA j]
        have hslot : ∀ j, slotOf L3 j =
            if j = n then { slotOf L n with parent := p }
            else { slotOf L j with children :=
              (if oldp ≠ SENTINEL ∧ j = oldp then (slotOf L j).children.erase n
                else (slotOf L j).children) ++
              (if p ≠ SENTINEL ∧ j = p then [n] else []) } := by
          intro j
          rw [hL3]
          by_cases hps : p = SENTINEL
          · rw [if_pos hps, hB j]
            by_cases hjn : j = n
            · rw [if_pos hjn, if_pos hjn]
            · rw [if_neg hjn, if_neg hjn, if_neg (show ¬(p ≠ SENTINEL ∧ j = p) from
                fun hx => hx.1 hps), List.append_nil]
              by_cases hjo : oldp ≠ SENTINEL ∧ j = oldp
              · rw [if_pos hjo, if_pos hjo]
              · rw [if_neg hjo, if_neg hjo]
          · rw [if_neg hps]
            by_cases hjp : j = p
            · have hjn : ¬ j = n := by
                rw [hjp]
                exact hpn
              have hplt : p < L.slots.length := by
                rcases hqok with hx | hqv
                · exact absurd hx hps
                · exact hqv.1
              rw [hjp, slotOf_updSlot_self _ _ _ (by rw [hLB, length_updSlot, hlenA]; exact hplt),
                hB p, if_neg (show ¬ p = n from hpn),
                if_neg (show ¬ p = n from hpn),
                if_pos (show p ≠ SENTINEL ∧ p = p from ⟨hps, rfl⟩)]
              by_cases hpo : oldp ≠ SENTINEL ∧ p = oldp
              · rw [if_pos hpo, if_pos hpo]
              · rw [if_neg hpo, if_neg hpo]
            · rw [slotOf_updSlot_ne _ _ _ _ hjp, hB j]
              by_cases hjn : j = n
              · rw [if_pos hjn, if_pos hjn]
              · rw [if_neg hjn, if_neg hjn,
                  if_neg (show ¬(p ≠ SENTINEL ∧ j = p) from fun hx => hjp hx.2),
                  List.append_nil]
                by_cases hjo : oldp ≠ SENTINEL ∧ j = oldp
                · rw [if_pos hjo, if_pos hjo]
                · rw [if_neg hjo, if_neg hjo]
        have hlen3 : L3.slots.length = L.slots.length := by
          rw [hL3]
          by_cases hps : p = SENTINEL
          · rw [if_pos hps, hLB, length_updSlot, hlenA]
          · rw [if_neg hps, length_updSlot, hLB, length_updSlot, hlenA]
        have hfieldsL3 : ∀ j, j ≠ n →
            (slotOf L3 j).parent = (slotOf L j).parent ∧
            (slotOf L3 j).inUse = (slotOf L j).inUse := by
          intro j hjn
          rw [hslot j, if_neg hjn]
          exact ⟨rfl, rfl⟩
        have hnfields : (slotOf L3 n).parent = p ∧
            (slotOf L3 n).inUse = (slotOf L n).inUse ∧
            (slotOf L3 n).children = (slotOf L n).children := by
          rw [hslot n, if_pos rfl]
          exact ⟨rfl, rfl, rfl⟩
        have hinuse : ∀ j, (slotOf L3 j).inUse = (slotOf L j).inUse := by
          intro j
          by_cases hjn : j = n
          · rw [hjn]
            exact hnfields.2.1
          · exact (hfieldsL3 j hjn).2
        have hvalid3 : ∀ x, ValidP L x → ValidP L3 x := by
          intro x hx
          exact ⟨by rw [hlen3]; exact hx.1, by rw [hinuse]; exact hx.2⟩
        have hch3 : ∀ j, j ≠ n → (slotOf L3 j).children =
            (if oldp ≠ SENTINEL ∧ j = oldp then (slotOf L j).children.erase n
              else (slotOf L j).children) ++
            (if p ≠ SENTINEL ∧ j = p then [n] else []) := by
          intro j hjn
          rw [hslot j, if_neg hjn]
        have hmem_n : ∀ j, j < L.slots.length → (slotOf L j).inUse = true →
            n ∈ (slotOf L j).children → oldp ≠ SENTINEL ∧ j = oldp := by
          intro j hjlt hjuse hm
          have hpn2 := (hch j hjlt hjuse n hm).2
          constructor
          · rw [holdp, hpn2]
            exact valid_ne_sent L hlenS j ⟨hjlt, hjuse⟩
          · rw [holdp, hpn2]
        have hcount_ne : ∀ j c, j ≠ n → c ≠ n →
            List.count c (slotOf L3 j).children = List.count c (slotOf L j).children := by
          intro j c hjn hcn
          rw [hch3 j hjn, List.count_append]
          have h2 : List.count c (if p ≠ SENTINEL ∧ j = p then [n] else []) = 0 := by
            split
            · rw [List.count_eq_zero]
              simp only [List.mem_singleton]
              exact hcn
            · rfl
          rw [h2]
          split
          · rw [List.count_erase_of_ne hcn]
            omega
          · omega
        have hcount_n : ∀ j, j ≠ n → j < L.slots.length → (slotOf L j).inUse = true →
            List.count n (slotOf L3 j).children
              = (if p ≠ SENTINEL ∧ j = p then 1 else 0) := by
          intro j hjn hjlt hjuse
          rw [hch3 j hjn, List.count_append]
          have h1 : List.count n (if oldp ≠ SENTINEL ∧ j = oldp
              then (slotOf L j).children.erase n else (slotOf L j).children) = 0 := by
            split
            · rename_i hx
              rw [List.count_erase_self]
              rcases hpar n hnlt hnuse with hs | ⟨-, hcnt⟩
              · exact absurd hs hx.1
              · rw [← holdp] at hcnt
                rw [← hx.2] at hcnt
                omega
            · rename_i hx
              rw [List.count_eq_zero]
              intro hm
              exact hx (hmem_n j hjlt hjuse hm)
          rw [h1]
          split
          · simp
          · simp
        have hwf3 : WF L3 := by
          refine ⟨by rw [hlen3]; exact hlenS, ?_, ?_, ?_, ?_, ?_⟩
          · -- ParentOk
            intro h hlt3 huse3
            rw [hlen3] at hlt3
            rw [hinuse h] at huse3
            by_cases hhn : h = n
            · rw [hhn, hnfields.1]
              by_cases hps : p = SENTINEL
              · exact Or.inl hps
              · have hqv : ValidP L p := by
                  rcases hqok with hx | hx
                  · exact absurd hx hps
                  · exact hx
                refine Or.inr ⟨hvalid3 p hqv, ?_⟩
                rw [hcount_n p hpn hqv.1 hqv.2, if_pos ⟨hps, rfl⟩]
            · rw [(hfieldsL3 h hhn).1]
              rcases hpar h hlt3 huse3 with hs | ⟨hv2, hc2⟩
              · exact Or.inl hs
              · refine Or.inr ⟨hvalid3 _ hv2, ?_⟩
                by_cases hqn : (slotOf L h).parent = n
                · rw [hqn, hnfields.2.2, ← hqn]
                  exact hc2
                · rw [hcount_ne _ _ hqn hhn]
                  exact hc2
          · -- ChildrenOk
            intro h hlt3 huse3 c hcm
            rw [hlen3] at hlt3
            rw [hinuse h] at huse3
            by_cases hhn : h = n
            · rw [hhn, hnfields.2.2] at hcm
              rcases hch n hnlt hnuse c hcm with ⟨hv2, hp2⟩
              have hcn : c ≠ n := by
                intro he
                rw [he] at hp2
                exact holdp_ne_n (holdp.trans hp2)
              refine ⟨hvalid3 _ hv2, ?_⟩
              rw [(hfieldsL3 c hcn).1, hp2, hhn]
            · rw [hch3 h hhn] at hcm
              rcases List.mem_append.mp hcm with h1 | h2
              · have hcmem : c ∈ (slotOf L h).children ∧ c ≠ n := by
                  by_cases hx : oldp ≠ SENTINEL ∧ h = oldp
                  · rw [if_pos hx] at h1
                    exact ⟨List.mem_of_mem_erase h1,
                      ((hnd h hlt3 huse3).mem_erase_iff.mp h1).1⟩
                  · rw [if_neg hx] at h1
                    refine ⟨h1, ?_⟩
                    intro he
                    rw [he] at h1
                    exact hx (hmem_n h hlt3 huse3 h1)
                rcases hch h hlt3 huse3 c hcmem.1 with ⟨hv2, hp2⟩
                refine ⟨hvalid3 _ hv2, ?_⟩
                rw [(hfieldsL3 c hcmem.2).1, hp2]
              · by_cases hx : p ≠ SENTINEL ∧ h = p
                · rw [if_pos hx] at h2
                  have hcn : c = n := by simpa using h2
                  rw [hcn, hnfields.1, hx.2]
                  exact ⟨hvalid3 n hnv, rfl⟩
                · rw [if_neg hx] at h2
                  simp at h2
          · -- NodupOk
            intro h hlt3 huse3
            rw [hlen3] at hlt3
            rw [hinuse h] at huse3
            by_cases hhn : h = n
            · rw [hhn, hnfields.2.2]
              exact hnd n hnlt hnuse
            · rw [hch3 h hhn]
              have hl1 : (if oldp ≠ SENTINEL ∧ h = oldp then (slotOf L h).children.erase n
                  else (slotOf L h).children).Nodup := by
                split
                · exact (hnd h hlt3 huse3).erase n
                · exact hnd h hlt3 huse3
              have hl1n : n ∉ (if oldp ≠ SENTINEL ∧ h = oldp
                  then (slotOf L h).children.erase n else (slotOf L h).children) ∨
                  ¬(p ≠ SENTINEL ∧ h = p) := by
                by_cases hx : oldp ≠ SENTINEL ∧ h = oldp
                · rw [if_pos hx]
                  left
                  intro hm
                  exact (((hnd h hlt3 huse3).mem_erase_iff.mp hm).1) rfl
                · by_cases hy : p ≠ SENTINEL ∧ h = p
                  · rw [if_neg hx]
                    left
                    intro hm
                    exact hx (hmem_n h hlt3 huse3 hm)
                  · right
                    exact hy
              by_cases hy : p ≠ SENTINEL ∧ h = p
              · rw [if_pos hy]
                rcases hl1n with hz | hz
                · exact nodup_append_singleton hl1 hz
                · exact absurd hy hz
              · rw [if_neg hy, List.append_nil]
                exact hl1
          · -- FreeClean
            intro h hlt3 huse3
            rw [hlen3] at hlt3
            rw [hinuse h] at huse3
            have hhn : h ≠ n := by
              intro he
              rw [he, hnuse] at huse3
              cases huse3
            have hx : ¬(oldp ≠ SENTINEL ∧ h = oldp) := by
              rintro ⟨hos, he⟩
              rcases hpar n hnlt hnuse with hs | ⟨hvq, -⟩
              · exact hos hs
              · have hvq2 : (slotOf L oldp).inUse = true := hvq.2
                rw [he, hvq2] at huse3
                cases huse3
            have hy : ¬(p ≠ SENTINEL ∧ h = p) := by
              rintro ⟨hps, he⟩
              rcases hqok with hz | hz
              · exact hps hz
              · rw [he, hz.2] at huse3
                cases huse3
            have := hfree h hlt3 huse3
            rw [hslot h, if_neg hhn, if_neg hx, if_neg hy, List.append_nil]
            rw [this]
          · -- Ranked
            by_cases hps : p = SENTINEL
            · refine ⟨d, ?_⟩
              intro h hlt3 huse3 hne3
              rw [hlen3] at hlt3
              rw [hinuse h] at huse3
              by_cases hhn : h = n
              · rw [hhn, hnfields.1] at hne3
                exact absurd hps hne3
              · rw [(hfieldsL3 h hhn).1] at hne3 ⊢
                exact hd h hlt3 huse3 hne3
            · have hqv : ValidP L p := by
                rcases hqok with hx | hx
                · exact absurd hx hps
                · exact hx
              refine ⟨fun x => if ∃ k, parIter L k x = n then d p + 1 + d x else d x, ?_⟩
              intro h hlt3 huse3 hne3
              rw [hlen3] at hlt3
              rw [hinuse h] at huse3
              by_cases hhn : h = n
              · rw [hhn, hnfields.1] at hne3 ⊢
                simp only [if_neg hnoreach, if_pos (⟨0, rfl⟩ : ∃ k, parIter L k n = n)]
                omega
              · rw [(hfieldsL3 h hhn).1] at hne3 ⊢
                have hstep : (∃ k, parIter L k h = n) → ∃ k, parIter L k (slotOf L h).parent = n := by
                  rintro ⟨k, hk⟩
                  cases k with
                  | zero => exact absurd hk hhn
                  | succ k =>
                    rw [parIter_succ, parentStep_valid L hlenS h ⟨hlt3, huse3⟩] at hk
                    exact ⟨k, hk⟩
                have hstep2 : (∃ k, parIter L k (slotOf L h).parent = n) →
                    ∃ k, parIter L k h = n := by
                  rintro ⟨k, hk⟩
                  refine ⟨k + 1, ?_⟩
                  rw [parIter_succ, parentStep_valid L hlenS h ⟨hlt3, huse3⟩]
                  exact hk
                by_cases hRh : ∃ k, parIter L k h = n
                · simp only [if_pos hRh, if_pos (hstep hRh)]
                  have := hd h hlt3 huse3 hne3
                  omega
                · simp only [if_neg hRh, if_neg (fun hx => hRh (hstep2 hx))]
                  exact hd h hlt3 huse3 hne3
        by_cases hps : p = SENTINEL
        · rw [if_pos hps]
          by_cases hos : oldp = SENTINEL
          · rw [if_pos hos]
            exact WF_markDirtyUp _ _ _ hwf3
          · rw [if_neg hos]
            exact WF_markDirtyUp _ _ _ (WF_markDirtyUp _ _ _ hwf3)
        · rw [if_neg hps]
          refine WF_markDirtyUp _ _ _ ?_
          by_cases hos : oldp = SENTINEL
          · rw [if_pos hos]
            exact WF_markDirtyUp _ _ _ hwf3
          · rw [if_neg hos]
            exact WF_markDirtyUp _ _ _ (WF_markDirtyUp _ _ _ hwf3)

/-- C6: every tree operation — add, remove, set_style, reparent — preserves
well-formedness of the engine state, and with it the claimed forest
invariant: every live node's parent is the sentinel or a live node, the node
occurs exactly once in the sibling chain of its parent's first child, and
following parent links reaches the sentinel within node_count steps. -/
theorem C6_ops_preserve_forest_invariant (L : Layout) (hwf : WF L) :
    (∀ p st, WF (zgl_layout_add L p st).1 ∧ ForestInv (zgl_layout_add L p st).1) ∧
    (∀ n, WF (zgl_layout_remove L n) ∧ ForestInv (zgl_layout_remove L n)) ∧
    (∀ n st, WF (zgl_layout_set_style L n st) ∧ ForestInv (zgl_layout_set_style L n st)) ∧
    (∀ n q, WF (zgl_layout_reparent L n q) ∧ ForestInv (zgl_layout_reparent L n q)) :=
  ⟨fun p st => ⟨WF_add L p st hwf, WF_implies_ForestInv _ (WF_add L p st hwf)⟩,
   fun n => ⟨WF_remove L n hwf, WF_implies_ForestInv _ (WF_remove L n hwf)⟩,
   fun n st => ⟨WF_set_style L n st hwf, WF_implies_ForestInv _ (WF_set_style L n st hwf)⟩,
   fun n q => ⟨WF_reparent L n q hwf, WF_implies_ForestInv _ (WF_reparent L n q hwf)⟩⟩

/-- C6 witness: on the concrete two-node engine, removing the child keeps
the forest invariant. -/
theorem C6_ops_preserve_forest_invariant_witness :
    WF sampleTwo ∧ ForestInv (zgl_layout_remove sampleTwo 1) :=
  ⟨⟨by decide, by decide, by decide, by decide, by decide, ⟨fun h => h, by decide⟩⟩,
   ((C6_ops_preserve_forest_invariant sampleTwo
     ⟨by decide, by decide, by decide, by decide, by decide,
      ⟨fun h => h, by decide⟩⟩).2.1 1).2⟩
